import Mathlib

/-!
Verification of the document chunking algorithm of `src/utils/document_chunker.py`.

The embedding models Python strings as `List Char`, Python dictionaries as
association lists (`Meta`), and the Python heap of metadata dictionaries as an
explicit store (`Store := List Meta`) in which each chunk's `metadata` field is
a reference (an index into the store).  The caller's metadata dictionary lives
at reference 0.  The unbounded `while` loop of `chunk_document` is modelled
with explicit fuel; running out of fuel yields the error `ChunkErr.fuelOut`,
and the `ZeroDivisionError` raised by the final logging statement
(`len(content) // total_chunks`) when no chunk was produced is modelled by
`ChunkErr.divZero`.
-/

namespace DocChunker

abbrev Str := List Char

/-- `MAX_CHUNK_SIZE = 10000` from the source. -/
def MAX_CHUNK_SIZE : Nat := 10000

/-- `CHUNK_OVERLAP = 250` from the source. -/
def CHUNK_OVERLAP : Nat := 250

/-- A metadata value: a string, an integer, or Python's `None`
(used as the `total_chunks` placeholder before back-filling). -/
inductive MVal where
  | str : Str → MVal
  | nat : Nat → MVal
  | none : MVal
  deriving DecidableEq, Repr

/-- A Python dict with string keys, as an association list. -/
abbrev Meta := List (Str × MVal)

/-- The heap of metadata dictionaries: index 0 is the caller's dictionary,
later indices are dictionaries allocated by `create_chunk`. -/
abbrev Store := List Meta

/-- A chunk record: `id`, `content`, and a reference into the store for
its `metadata` dictionary. -/
structure Chunk where
  id : Str
  content : Str
  metaRef : Nat
  deriving DecidableEq, Repr

/-- Errors of a run: `fuelOut` models non-termination of the `while` loop
within the given fuel; `divZero` models the `ZeroDivisionError` raised by
`len(content) // total_chunks` when `total_chunks = 0`. -/
inductive ChunkErr where
  | fuelOut : ChunkErr
  | divZero : ChunkErr
  deriving DecidableEq, Repr

/-- Python `dict[k] = v` / the override part of `{**m, k: v}`:
replace the value at `k` if present, otherwise append. -/
def setk : Meta → Str → MVal → Meta
  | [], k, v => [(k, v)]
  | (k', v') :: rest, k, v =>
    if k' = k then (k, v) :: rest else (k', v') :: setk rest k v

/-- Python `m.get(k)`: first value bound to `k`, if any. -/
def getk : Meta → Str → Option MVal
  | [], _ => Option.none
  | (k', v') :: rest, k => if k' = k then some v' else getk rest k

/-- Characters treated as whitespace by Python's `str.strip` (ASCII range). -/
def isPySpace (c : Char) : Bool :=
  c = ' ' || c = '\t' || c = '\n' || c = '\r' || c = Char.ofNat 11 || c = Char.ofNat 12

/-- Python `s.lstrip()`. -/
def lstrip (s : Str) : Str := s.dropWhile isPySpace

/-- Python `s.rstrip()`. -/
def rstrip (s : Str) : Str := (s.reverse.dropWhile isPySpace).reverse

/-- Python `s.strip()`. -/
def strip (s : Str) : Str := lstrip (rstrip s)

/-- Python `s[-n:]` for `n > 0`: the last `min n (length s)` characters. -/
def tailN (n : Nat) (s : Str) : Str := s.drop (s.length - n)

/-- The two-character paragraph separator `"\n\n"`. -/
def nl2 : Str := ['\n', '\n']

/-- Prefix the first piece of a split result with a character
(helper for the recursive splitters). -/
def consHead (c : Char) : List Str → List Str
  | [] => [[c]]
  | p :: ps => (c :: p) :: ps

/-- Python `text.split("\n\n")`: greedy left-to-right split on the
two-character separator, keeping empty pieces. -/
def splitParas : Str → List Str
  | [] => [[]]
  | [c] => [[c]]
  | c :: d :: rest =>
    if c = '\n' ∧ d = '\n' then [] :: splitParas rest
    else consHead c (splitParas (d :: rest))

/-- The lookahead `(?=#{1,6}\s)` of the header regex: the text starts with
one to six `#` characters followed by a whitespace character. -/
def isHeaderStart (s : Str) : Bool :=
  let j := (s.takeWhile (· = '#')).length
  decide (1 ≤ j) && decide (j ≤ 6) &&
    (match s.drop j with
     | c :: _ => isPySpace c
     | [] => false)

/-- Python `re.split(r"\n(?=#{1,6}\s)", content)`: split at each newline that
is immediately followed by a markdown header; the newline is consumed. -/
def headerSplit : Str → List Str
  | [] => [[]]
  | c :: rest =>
    if c = '\n' ∧ isHeaderStart rest then [] :: headerSplit rest
    else consHead c (headerSplit rest)

/-- Decimal digits of a chunk index (for the `_chunk_{i}` id suffix). -/
def natDigits (n : Nat) : Str := Nat.toDigits 10 n

/-- `_create_chunk` from the source: build the id `"{doc_id}_chunk_{i}"` and
allocate a fresh metadata dictionary `{**metadata, "chunk_index": i,
"total_chunks": None}` in the store (`mref` is the reference of the caller's
`metadata` dictionary). -/
def create_chunk (store : Store) (doc_id : Str) (content : Str) (mref : Nat)
    (chunk_index : Nat) : Chunk × Store :=
  let m := store.getD mref []
  let newMeta := setk (setk m ("chunk_index").data (MVal.nat chunk_index))
    ("total_chunks").data MVal.none
  (⟨doc_id ++ ("_chunk_").data ++ natDigits chunk_index, content, store.length⟩,
    store ++ [newMeta])

/-- The paragraph loop of `_split_by_paragraphs` (lines 122-140): greedily
accumulate paragraphs into `temp`, emitting the stripped buffer and seeding
the next buffer with the trailing `CHUNK_OVERLAP` characters on overflow. -/
def paraGo (doc_id : Str) (mref : Nat) :
    List Str → Str → List Chunk → Nat → Store → Str × List Chunk × Store
  | [], temp, chunks, _, store => (temp, chunks, store)
  | para :: rest, temp, chunks, chunk_index, store =>
    if temp.length + para.length + 2 > MAX_CHUNK_SIZE then
      let (chunks', chunk_index', store') :=
        if strip temp ≠ [] then
          let (c, st) := create_chunk store doc_id (strip temp) mref chunk_index
          (chunks ++ [c], chunk_index + 1, st)
        else (chunks, chunk_index, store)
      let temp' :=
        if CHUNK_OVERLAP > 0 ∧ temp ≠ [] then tailN CHUNK_OVERLAP temp ++ nl2 ++ para
        else para
      paraGo doc_id mref rest temp' chunks' chunk_index' store'
    else
      let temp' := if temp ≠ [] then temp ++ nl2 ++ para else para
      paraGo doc_id mref rest temp' chunks chunk_index store

/-- `_split_by_paragraphs` from the source: split `text` on `"\n\n"` and run
the paragraph loop with an empty buffer, returning the remaining buffer. -/
def split_by_paragraphs (text : Str) (doc_id : Str) (mref : Nat)
    (chunks : List Chunk) (chunk_index : Nat) (store : Store) :
    Str × List Chunk × Store :=
  paraGo doc_id mref (splitParas text) [] chunks chunk_index store

/-- The `while len(current_chunk) > MAX_CHUNK_SIZE` loop of `chunk_document`
(lines 71-75), with explicit fuel.  After each call of
`split_by_paragraphs` the source resynchronises `chunk_index = len(chunks)`. -/
def whileSplit (doc_id : Str) (mref : Nat) (fuel : Nat) (current : Str)
    (chunks : List Chunk) (chunk_index : Nat) (store : Store) :
    Except ChunkErr (Str × List Chunk × Nat × Store) :=
  if current.length > MAX_CHUNK_SIZE then
    match fuel with
    | 0 => .error .fuelOut
    | f + 1 =>
      let r := split_by_paragraphs current doc_id mref chunks chunk_index store
      whileSplit doc_id mref f r.1 r.2.1 r.2.1.length r.2.2
  else .ok (current, chunks, chunk_index, store)

/-- The section loop of `chunk_document` (lines 48-75): accumulate sections
into `current_chunk`, emitting on overflow with overlap seeding, then run the
paragraph-split `while` loop. -/
def sectionsGo (doc_id : Str) (mref : Nat) (fuel : Nat) :
    List Str → Str → List Chunk → Nat → Store →
    Except ChunkErr (Str × List Chunk × Nat × Store)
  | [], current, chunks, chunk_index, store => .ok (current, chunks, chunk_index, store)
  | sec :: rest, current, chunks, chunk_index, store =>
    let next :=
      if current ≠ [] ∧ current.length + sec.length > MAX_CHUNK_SIZE then
        let (chunks', chunk_index', store') :=
          if strip current ≠ [] then
            let (c, st) := create_chunk store doc_id (strip current) mref chunk_index
            (chunks ++ [c], chunk_index + 1, st)
          else (chunks, chunk_index, store)
        let current' :=
          if CHUNK_OVERLAP > 0 ∧ current ≠ [] then
            tailN CHUNK_OVERLAP current ++ nl2 ++ sec
          else sec
        (current', chunks', chunk_index', store')
      else
        ((if current ≠ [] then current ++ nl2 ++ sec else sec), chunks, chunk_index, store)
    match whileSplit doc_id mref fuel next.1 next.2.1 next.2.2.1 next.2.2.2 with
    | .error e => .error e
    | .ok (current₂, chunks₂, chunk_index₂, store₂) =>
      sectionsGo doc_id mref fuel rest current₂ chunks₂ chunk_index₂ store₂

/-- The back-fill loop (lines 84-86): for each chunk, write `total_chunks`
into the dictionary referenced by the chunk's `metadata` field. -/
def backfillGo (total : Nat) : List Chunk → Store → Store
  | [], store => store
  | c :: cs, store =>
    backfillGo total cs
      (store.set c.metaRef (setk (store.getD c.metaRef []) ("total_chunks").data (MVal.nat total)))

/-- The sections of a content string, as computed by lines 40-43 of the
source: header split, strip, drop empty. -/
def sectionsOf (content : Str) : List Str :=
  ((headerSplit content).map strip).filter (· ≠ [])

/-- `chunk_document` from the source.  The result pairs the produced chunk
list with the final store; the caller's metadata dictionary is the store
entry at reference 0. -/
def chunk_document (fuel : Nat) (content : Str) (doc_id : Str) (metadata : Meta) :
    Except ChunkErr (List Chunk × Store) :=
  if content.length ≤ MAX_CHUNK_SIZE then .ok ([⟨doc_id, content, 0⟩], [metadata])
  else
    match sectionsGo doc_id 0 fuel (sectionsOf content) [] [] 0 [metadata] with
    | .error e => .error e
    | .ok (current, chunks, chunk_index, store) =>
      let (chunks₂, store₂) :=
        if strip current ≠ [] then
          let (c, st) := create_chunk store doc_id (strip current) 0 chunk_index
          (chunks ++ [c], st)
        else (chunks, store)
      let total := chunks₂.length
      let store₃ := backfillGo total chunks₂ store₂
      if total = 0 then .error .divZero else .ok (chunks₂, store₃)

/-- The metadata dictionary of a chunk, read from a store. -/
def metaOf (store : Store) (c : Chunk) : Meta := store.getD c.metaRef []

/-! ### Helpers for evaluating the splitters on composite strings -/

/-- Prepend a string to the first piece of a split result. -/
def prependHead (xs : Str) : List Str → List Str
  | [] => [xs]
  | p :: ps => (xs ++ p) :: ps

theorem consHead_cons (c : Char) (p : Str) (ps : List Str) :
    consHead c (p :: ps) = (c :: p) :: ps := rfl

theorem prependHead_nil_list (xs : Str) : prependHead xs [] = [xs] := rfl

theorem prependHead_cons (xs : Str) (p : Str) (ps : List Str) :
    prependHead xs (p :: ps) = (xs ++ p) :: ps := rfl

theorem consHead_eq_prependHead (c : Char) (L : List Str) :
    consHead c L = prependHead [c] L := by
  cases L <;> rfl

theorem prependHead_prependHead (xs ys : Str) (L : List Str) :
    prependHead xs (prependHead ys L) = prependHead (xs ++ ys) L := by
  cases L <;> simp [prependHead]

theorem headerSplit_nil : headerSplit [] = [[]] := rfl

theorem headerSplit_cons_of_ne (c : Char) (s : Str) (h : c ≠ '\n') :
    headerSplit (c :: s) = consHead c (headerSplit s) := by
  simp only [headerSplit]
  rw [if_neg]
  intro hc
  exact h hc.1

theorem headerSplit_nl_of_header (s : Str) (h : isHeaderStart s = true) :
    headerSplit ('\n' :: s) = [] :: headerSplit s := by
  simp [headerSplit, h]

theorem headerSplit_nl_of_not_header (s : Str) (h : isHeaderStart s = false) :
    headerSplit ('\n' :: s) = consHead '\n' (headerSplit s) := by
  simp only [headerSplit]
  rw [if_neg]
  intro hc
  exact absurd hc.2 (by simp [h])

theorem headerSplit_ne_nil (s : Str) : headerSplit s ≠ [] := by
  induction s with
  | nil => simp [headerSplit]
  | cons c rest ih =>
    simp only [headerSplit]
    by_cases hc : c = '\n' ∧ isHeaderStart rest = true
    · rw [if_pos hc]
      simp
    · rw [if_neg hc]
      cases hh : headerSplit rest with
      | nil => exact absurd hh ih
      | cons p ps => simp [consHead]

theorem headerSplit_append_run (xs s : Str) (h : ∀ c ∈ xs, c ≠ '\n') :
    headerSplit (xs ++ s) = prependHead xs (headerSplit s) := by
  induction xs with
  | nil =>
    cases hh : headerSplit s with
    | nil => exact absurd hh (headerSplit_ne_nil s)
    | cons p ps =>
      rw [List.nil_append, hh]
      rfl
  | cons c cs ih =>
    have hc : c ≠ '\n' := h c (List.mem_cons_self c cs)
    rw [List.cons_append, headerSplit_cons_of_ne c (cs ++ s) hc,
      ih (fun x hx => h x (List.mem_cons_of_mem c hx)),
      consHead_eq_prependHead, prependHead_prependHead]
    rfl

theorem splitParas_nil : splitParas [] = [[]] := rfl

theorem splitParas_nl2_cons (s : Str) : splitParas ('\n' :: '\n' :: s) = [] :: splitParas s := by
  simp [splitParas]

theorem splitParas_cons_of_ne (c : Char) (s : Str) (h : c ≠ '\n') :
    splitParas (c :: s) = consHead c (splitParas s) := by
  cases s with
  | nil => rfl
  | cons d rest =>
    simp only [splitParas]
    rw [if_neg]
    intro hc
    exact h hc.1

theorem splitParas_nl_cons_of_ne (d : Char) (s : Str) (h : d ≠ '\n') :
    splitParas ('\n' :: d :: s) = consHead '\n' (splitParas (d :: s)) := by
  simp only [splitParas]
  rw [if_neg]
  intro hc
  exact h hc.2

theorem splitParas_ne_nil (s : Str) : splitParas s ≠ [] := by
  induction s with
  | nil => simp [splitParas]
  | cons c rest ih =>
    cases rest with
    | nil => simp [splitParas]
    | cons d r =>
      simp only [splitParas]
      by_cases hc : c = '\n' ∧ d = '\n'
      · rw [if_pos hc]
        simp
      · rw [if_neg hc]
        cases hh : splitParas (d :: r) with
        | nil => exact absurd hh ih
        | cons p ps => simp [consHead]

theorem splitParas_append_run (xs s : Str) (h : ∀ c ∈ xs, c ≠ '\n') :
    splitParas (xs ++ s) = prependHead xs (splitParas s) := by
  induction xs with
  | nil =>
    cases hh : splitParas s with
    | nil => exact absurd hh (splitParas_ne_nil s)
    | cons p ps =>
      rw [List.nil_append, hh]
      rfl
  | cons c cs ih =>
    have hc : c ≠ '\n' := h c (List.mem_cons_self c cs)
    rw [List.cons_append, splitParas_cons_of_ne c (cs ++ s) hc,
      ih (fun x hx => h x (List.mem_cons_of_mem c hx)),
      consHead_eq_prependHead, prependHead_prependHead]
    rfl

theorem replicate_ne_nl (n : Nat) (c : Char) (hc : c ≠ '\n') :
    ∀ x ∈ List.replicate n c, x ≠ '\n' := by
  intro x hx
  rw [List.eq_of_mem_replicate hx]
  exact hc

/-! ### Strip lemmas -/

theorem lstrip_cons_of_space (c : Char) (s : Str) (h : isPySpace c = true) :
    lstrip (c :: s) = lstrip s := by
  simp [lstrip, List.dropWhile_cons, h]

theorem lstrip_cons_of_not_space (c : Char) (s : Str) (h : isPySpace c = false) :
    lstrip (c :: s) = c :: s := by
  simp [lstrip, List.dropWhile_cons, h]

theorem rstrip_append_last (s : Str) (c : Char) (h : isPySpace c = false) :
    rstrip (s ++ [c]) = s ++ [c] := by
  simp [rstrip, List.dropWhile_cons, h]

theorem strip_eq_self_of_ends (c c' : Char) (s : Str)
    (h : isPySpace c = false) (h' : isPySpace c' = false) :
    strip (c :: (s ++ [c'])) = c :: (s ++ [c']) := by
  have h1 : rstrip (c :: (s ++ [c'])) = c :: (s ++ [c']) := by
    have := rstrip_append_last (c :: s) c' h'
    simpa using this
  rw [strip, h1, lstrip_cons_of_not_space _ _ h]

theorem dropWhile_replicate_space (n : Nat) :
    List.dropWhile isPySpace (List.replicate n ' ') = [] := by
  induction n with
  | zero => rfl
  | succ k ih =>
    rw [List.replicate_succ, List.dropWhile_cons_of_pos (by decide), ih]

theorem strip_replicate_space (n : Nat) : strip (List.replicate n ' ') = [] := by
  simp only [strip, rstrip, lstrip, List.reverse_replicate, dropWhile_replicate_space,
    List.reverse_nil, List.dropWhile_nil]

theorem strip_nil : strip [] = [] := rfl

theorem headerSplit_of_no_nl (s : Str) (h : ∀ c ∈ s, c ≠ '\n') : headerSplit s = [s] := by
  have := headerSplit_append_run s [] h
  simpa [prependHead, headerSplit_nil] using this

theorem splitParas_of_no_nl (s : Str) (h : ∀ c ∈ s, c ≠ '\n') : splitParas s = [s] := by
  have := splitParas_append_run s [] h
  simpa [prependHead, splitParas_nil] using this

theorem lstrip_replicate_not_space (n : Nat) (c : Char) (h : isPySpace c = false) :
    lstrip (List.replicate n c) = List.replicate n c := by
  cases n with
  | zero => rfl
  | succ k => rw [List.replicate_succ, lstrip, List.dropWhile_cons_of_neg (by simp [h])]

theorem rstrip_replicate_not_space (n : Nat) (c : Char) (h : isPySpace c = false) :
    rstrip (List.replicate n c) = List.replicate n c := by
  have h1 := lstrip_replicate_not_space n c h
  rw [rstrip, List.reverse_replicate]
  rw [lstrip] at h1
  rw [h1, List.reverse_replicate]

theorem strip_replicate_not_space (n : Nat) (c : Char) (h : isPySpace c = false) :
    strip (List.replicate n c) = List.replicate n c := by
  rw [strip, rstrip_replicate_not_space n c h, lstrip_replicate_not_space n c h]

/-! ### tailN lemmas -/

theorem tailN_append_exact (xs ys : Str) (n : Nat) (h : ys.length = n) :
    tailN n (xs ++ ys) = ys := by
  have hlen : (xs ++ ys).length - n = xs.length := by
    simp [List.length_append, h]
  rw [tailN, hlen, List.drop_left]

/-! ### Step lemmas for the loops -/

theorem paraGo_nil (d : Str) (mref : Nat) (temp : Str) (chunks : List Chunk)
    (idx : Nat) (store : Store) :
    paraGo d mref [] temp chunks idx store = (temp, chunks, store) := rfl

theorem paraGo_cons_fit (d : Str) (mref : Nat) (para : Str) (rest : List Str)
    (temp : Str) (chunks : List Chunk) (idx : Nat) (store : Store)
    (h : ¬ temp.length + para.length + 2 > MAX_CHUNK_SIZE) :
    paraGo d mref (para :: rest) temp chunks idx store =
      paraGo d mref rest (if temp ≠ [] then temp ++ nl2 ++ para else para)
        chunks idx store := by
  rw [paraGo, if_neg h]

theorem paraGo_cons_emit (d : Str) (mref : Nat) (para : Str) (rest : List Str)
    (temp : Str) (chunks : List Chunk) (idx : Nat) (store : Store)
    (h : temp.length + para.length + 2 > MAX_CHUNK_SIZE)
    (h2 : strip temp ≠ []) (h3 : temp ≠ []) :
    paraGo d mref (para :: rest) temp chunks idx store =
      paraGo d mref rest (tailN CHUNK_OVERLAP temp ++ nl2 ++ para)
        (chunks ++ [(create_chunk store d (strip temp) mref idx).1])
        (idx + 1) (create_chunk store d (strip temp) mref idx).2 := by
  rw [paraGo, if_pos h, if_pos h2, if_pos (by exact ⟨by decide, h3⟩)]

theorem paraGo_cons_skip_empty (d : Str) (mref : Nat) (para : Str)
    (rest : List Str) (chunks : List Chunk) (idx : Nat) (store : Store)
    (h : para.length + 2 > MAX_CHUNK_SIZE) :
    paraGo d mref (para :: rest) [] chunks idx store =
      paraGo d mref rest para chunks idx store := by
  rw [paraGo, if_pos (by simpa using h), if_neg (by simp [strip_nil]),
    if_neg (by simp)]

theorem whileSplit_exit (d : Str) (mref fuel : Nat) (current : Str)
    (chunks : List Chunk) (idx : Nat) (store : Store)
    (h : ¬ current.length > MAX_CHUNK_SIZE) :
    whileSplit d mref fuel current chunks idx store = .ok (current, chunks, idx, store) := by
  rw [whileSplit.eq_def, if_neg h]

theorem whileSplit_step (d : Str) (mref f : Nat) (current : Str)
    (chunks : List Chunk) (idx : Nat) (store : Store)
    (h : current.length > MAX_CHUNK_SIZE) :
    whileSplit d mref (f + 1) current chunks idx store =
      whileSplit d mref f (split_by_paragraphs current d mref chunks idx store).1
        (split_by_paragraphs current d mref chunks idx store).2.1
        (split_by_paragraphs current d mref chunks idx store).2.1.length
        (split_by_paragraphs current d mref chunks idx store).2.2 := by
  rw [whileSplit.eq_def, if_pos h]

theorem sectionsGo_nil (d : Str) (mref fuel : Nat) (current : Str)
    (chunks : List Chunk) (idx : Nat) (store : Store) :
    sectionsGo d mref fuel [] current chunks idx store = .ok (current, chunks, idx, store) := rfl

theorem sectionsGo_cons_empty (d : Str) (mref fuel : Nat) (sec : Str)
    (rest : List Str) (chunks : List Chunk) (idx : Nat) (store : Store) :
    sectionsGo d mref fuel (sec :: rest) [] chunks idx store =
      match whileSplit d mref fuel sec chunks idx store with
      | .error e => .error e
      | .ok (c₂, ch₂, i₂, st₂) => sectionsGo d mref fuel rest c₂ ch₂ i₂ st₂ := by
  rw [sectionsGo, if_neg (by simp), if_neg (by simp)]

theorem sectionsGo_cons_fit (d : Str) (mref fuel : Nat) (sec : Str)
    (rest : List Str) (current : Str) (chunks : List Chunk) (idx : Nat)
    (store : Store)
    (h : ¬ (current ≠ [] ∧ current.length + sec.length > MAX_CHUNK_SIZE))
    (h2 : current ≠ []) :
    sectionsGo d mref fuel (sec :: rest) current chunks idx store =
      match whileSplit d mref fuel (current ++ nl2 ++ sec) chunks idx store with
      | .error e => .error e
      | .ok (c₂, ch₂, i₂, st₂) => sectionsGo d mref fuel rest c₂ ch₂ i₂ st₂ := by
  rw [sectionsGo]
  simp only [if_neg h, if_pos h2]

theorem sectionsGo_cons_emit (d : Str) (mref fuel : Nat) (sec : Str)
    (rest : List Str) (current : Str) (chunks : List Chunk) (idx : Nat)
    (store : Store)
    (h : current ≠ [] ∧ current.length + sec.length > MAX_CHUNK_SIZE)
    (h2 : strip current ≠ []) :
    sectionsGo d mref fuel (sec :: rest) current chunks idx store =
      match whileSplit d mref fuel (tailN CHUNK_OVERLAP current ++ nl2 ++ sec)
          (chunks ++ [(create_chunk store d (strip current) mref idx).1])
          (idx + 1) (create_chunk store d (strip current) mref idx).2 with
      | .error e => .error e
      | .ok (c₂, ch₂, i₂, st₂) => sectionsGo d mref fuel rest c₂ ch₂ i₂ st₂ := by
  rw [sectionsGo]
  simp only [if_pos h, if_pos h2, if_pos (show CHUNK_OVERLAP > 0 ∧ current ≠ [] from ⟨by decide, h.1⟩)]

/-! ### C1: a single paragraph of length `2 × MAX_CHUNK_SIZE` -/

/-- The C1 input: one paragraph of `2 × MAX_CHUNK_SIZE` characters, with no
header lines and no blank-line breaks. -/
def content1 : Str := List.replicate (2 * MAX_CHUNK_SIZE) 'a'

theorem content1_no_nl : ∀ c ∈ content1, c ≠ '\n' :=
  replicate_ne_nl _ 'a' (by decide)

theorem content1_length : content1.length = 20000 := by
  rw [content1, List.length_replicate]
  decide

theorem sectionsOf_content1 : sectionsOf content1 = [content1] := by
  rw [sectionsOf, headerSplit_of_no_nl content1 content1_no_nl]
  have hs : strip content1 = content1 := strip_replicate_not_space _ 'a' (by decide)
  have hne : content1 ≠ [] := by
    intro h
    have := content1_length
    rw [h] at this
    simp at this
  simp [hs, hne]

/-- One pass of `_split_by_paragraphs` over a single paragraph longer than
the limit returns the text unchanged and emits nothing. -/
theorem split_stuck (s : Str) (d : Str) (mref : Nat) (chunks : List Chunk)
    (idx : Nat) (store : Store) (hpar : splitParas s = [s])
    (hlen : s.length + 2 > MAX_CHUNK_SIZE) :
    split_by_paragraphs s d mref chunks idx store = (s, chunks, store) := by
  rw [split_by_paragraphs, hpar]
  simp only [paraGo, List.length_nil, Nat.zero_add]
  rw [if_pos hlen]
  simp [strip_nil, paraGo]

/-- The `while` loop never terminates on a state whose buffer is a single
oversized paragraph: each pass returns the buffer unchanged. -/
theorem whileSplit_stuck (s : Str) (d : Str) (mref : Nat)
    (hpar : splitParas s = [s]) (hlen : s.length > MAX_CHUNK_SIZE) :
    ∀ fuel chunks idx store,
      whileSplit d mref fuel s chunks idx store = .error .fuelOut := by
  intro fuel
  induction fuel with
  | zero =>
    intro chunks idx store
    rw [whileSplit, if_pos hlen]
  | succ f ih =>
    intro chunks idx store
    rw [whileSplit, if_pos hlen]
    simp only
    rw [split_stuck s d mref chunks idx store hpar (by omega)]
    exact ih _ _ _

/-- C1, settled against the code: on a single paragraph of length
`2 × MAX_CHUNK_SIZE` with no headers and no blank lines, the oversized-buffer
fallback loop of `chunk_document` makes no progress — `_split_by_paragraphs`
returns the whole text and appends no chunk — so the function never
terminates (it exhausts every fuel bound), instead of returning one oversized
chunk as the claim states. -/
theorem C1_nonterminating (fuel : Nat) (d : Str) (m : Meta) :
    chunk_document fuel content1 d m = .error .fuelOut := by
  rw [chunk_document, if_neg (by rw [content1_length]; decide),
    sectionsOf_content1, sectionsGo_cons_empty,
    whileSplit_stuck content1 d 0 (splitParas_of_no_nl content1 content1_no_nl)
      (by rw [content1_length]; decide) fuel [] 0 [m]]

/-! ### C2: whitespace-only content longer than the limit -/

/-- The C2 failing input: `MAX_CHUNK_SIZE + 1` space characters. -/
def content2 : Str := List.replicate (MAX_CHUNK_SIZE + 1) ' '

theorem content2_length : content2.length = 10001 := by
  rw [content2, List.length_replicate]
  decide

theorem content2_ne_nil : content2 ≠ [] := by
  intro h
  have := content2_length
  rw [h] at this
  simp at this

theorem sectionsOf_content2 : sectionsOf content2 = [] := by
  rw [sectionsOf, headerSplit_of_no_nl content2 (replicate_ne_nl _ ' ' (by decide))]
  simp [content2, strip_replicate_space]

/-- C2, settled against the code: on a non-empty, whitespace-only input of
`MAX_CHUNK_SIZE + 1` characters, the splitting path produces zero chunks
(every section strips to empty), so the final logging statement evaluates
`len(content) // total_chunks` with `total_chunks = 0` and raises
`ZeroDivisionError` — contradicting the claim that the function returns
normally for every non-empty input. -/
theorem C2_div_zero (fuel : Nat) (d : Str) (m : Meta) :
    content2 ≠ [] ∧ chunk_document fuel content2 d m = .error .divZero := by
  refine ⟨content2_ne_nil, ?_⟩
  rw [chunk_document, if_neg (by rw [content2_length]; decide),
    sectionsOf_content2, sectionsGo_nil]
  rfl

/-! ### C3 and C4: the fast path -/

theorem fast_path (content d : Str) (m : Meta) (fuel : Nat)
    (h : content.length ≤ MAX_CHUNK_SIZE) :
    chunk_document fuel content d m = .ok ([⟨d, content, 0⟩], [m]) := by
  rw [chunk_document, if_pos h]

/-- The caller metadata used in the C3 counterexample. -/
def mC3 : Meta := [(("k").data, MVal.str ("v").data)]

/-- C3 counterexample: on the fast path (`len(content) ≤ MAX_CHUNK_SIZE`) the
source returns the caller's metadata dictionary itself — no `chunk_index` and
no `total_chunks` key is injected — contradicting the claim that the single
chunk's metadata is the caller's metadata plus `chunk_index = 0` and
`total_chunks = 1`. -/
theorem C3_cx :
    chunk_document 0 ("hi").data ("doc").data mC3 =
      .ok ([⟨("doc").data, ("hi").data, 0⟩], [mC3]) ∧
    getk (metaOf [mC3] ⟨("doc").data, ("hi").data, 0⟩) (("chunk_index").data) = Option.none ∧
    getk (metaOf [mC3] ⟨("doc").data, ("hi").data, 0⟩) (("total_chunks").data) = Option.none := by
  refine ⟨?_, by decide, by decide⟩
  rw [chunk_document, if_pos (by decide)]

/-- C3 amended: for `len(content) ≤ MAX_CHUNK_SIZE`, `chunk_document` returns
exactly one chunk whose id is `doc_id`, whose content is the input content
unchanged, and whose metadata is the caller's metadata dictionary itself
(reference 0 of the store, which holds exactly `metadata`), with no injected
keys. -/
theorem C3_fast_path (content d : Str) (m : Meta) (fuel : Nat)
    (h : content.length ≤ MAX_CHUNK_SIZE) :
    chunk_document fuel content d m = .ok ([⟨d, content, 0⟩], [m]) :=
  fast_path content d m fuel h

theorem C3_fast_path_witness :
    (("hi").data : Str).length ≤ MAX_CHUNK_SIZE ∧
    chunk_document 0 ("hi").data ("doc").data mC3 =
      .ok ([⟨("doc").data, ("hi").data, 0⟩], [mC3]) :=
  ⟨by decide, C3_fast_path ("hi").data ("doc").data mC3 0 (by decide)⟩

theorem strip_all_space (s : Str) (h : ∀ c ∈ s, isPySpace c = true) :
    strip s = [] := by
  have h1 : s.reverse.dropWhile isPySpace = [] := by
    rw [List.dropWhile_eq_nil_iff]
    intro x hx
    exact h x (List.mem_reverse.mp hx)
  rw [strip, rstrip, h1]
  rfl

theorem headerSplit_chars (s : Str) : ∀ p ∈ headerSplit s, ∀ c ∈ p, c ∈ s := by
  induction s with
  | nil =>
    intro p hp c hc
    simp [headerSplit] at hp
    rw [hp] at hc
    simp at hc
  | cons a rest ih =>
    intro p hp c hc
    simp only [headerSplit] at hp
    by_cases ha : a = '\n' ∧ isHeaderStart rest = true
    · rw [if_pos ha] at hp
      rcases List.mem_cons.mp hp with h1 | h1
      · rw [h1] at hc
        simp at hc
      · exact List.mem_cons_of_mem a (ih p h1 c hc)
    · rw [if_neg ha] at hp
      cases hh : headerSplit rest with
      | nil => exact absurd hh (headerSplit_ne_nil rest)
      | cons q qs =>
        rw [hh, consHead_cons] at hp
        rcases List.mem_cons.mp hp with h1 | h1
        · rw [h1] at hc
          rcases List.mem_cons.mp hc with h2 | h2
          · rw [h2]
            exact List.mem_cons_self a rest
          · exact List.mem_cons_of_mem a
              (ih q (by rw [hh]; exact List.mem_cons_self q qs) c h2)
        · exact List.mem_cons_of_mem a (ih p (by rw [hh]; exact List.mem_cons_of_mem q h1) c hc)

theorem sectionsOf_all_space (content : Str)
    (h : ∀ c ∈ content, isPySpace c = true) : sectionsOf content = [] := by
  rw [sectionsOf, List.filter_eq_nil_iff.mpr]
  intro p hp
  rcases List.mem_map.mp hp with ⟨q, hq, hpq⟩
  have : strip q = [] :=
    strip_all_space q (fun c hc => h c (headerSplit_chars content q hq c hc))
  rw [← hpq, this]
  simp

/-- C4 counterexample: empty content takes the fast path and yields exactly
one chunk wrapping the empty content — not zero chunks as the claim states. -/
theorem C4_cx :
    chunk_document 0 [] ("doc").data [] = .ok ([⟨("doc").data, [], 0⟩], [[]]) ∧
    ([⟨("doc").data, [], 0⟩] : List Chunk).length = 1 := by
  refine ⟨?_, rfl⟩
  rw [chunk_document, if_pos (by decide)]

/-- C4 amended: empty or whitespace-only content of length at most
`MAX_CHUNK_SIZE` takes the fast path and yields one chunk wrapping the
content unchanged; whitespace-only content longer than `MAX_CHUNK_SIZE`
yields zero chunks on the splitting path and then raises `ZeroDivisionError`
in the final logging statement. -/
theorem C4_whitespace (content d : Str) (m : Meta) (fuel : Nat)
    (hws : ∀ c ∈ content, isPySpace c = true) :
    (content.length ≤ MAX_CHUNK_SIZE →
      chunk_document fuel content d m = .ok ([⟨d, content, 0⟩], [m])) ∧
    (content.length > MAX_CHUNK_SIZE →
      chunk_document fuel content d m = .error .divZero) := by
  constructor
  · intro h
    exact fast_path content d m fuel h
  · intro h
    rw [chunk_document, if_neg (by omega), sectionsOf_all_space content hws,
      sectionsGo_nil]
    rfl

theorem C4_whitespace_witness :
    (∀ c ∈ (("   ").data : Str), isPySpace c = true) ∧
    chunk_document 0 ("   ").data ("doc").data [] =
      .ok ([⟨("doc").data, ("   ").data, 0⟩], [[]]) :=
  ⟨by decide, (C4_whitespace ("   ").data ("doc").data [] 0 (by decide)).1 (by decide)⟩

/-! ### Composed step lemmas -/

theorem sectionsGo_cons_empty_ok (d : Str) (mref fuel : Nat) (sec : Str)
    (rest : List Str) (chunks : List Chunk) (idx : Nat) (store : Store)
    (c₂ : Str) (ch₂ : List Chunk) (i₂ : Nat) (st₂ : Store)
    (h : whileSplit d mref fuel sec chunks idx store = .ok (c₂, ch₂, i₂, st₂)) :
    sectionsGo d mref fuel (sec :: rest) [] chunks idx store =
      sectionsGo d mref fuel rest c₂ ch₂ i₂ st₂ := by
  rw [sectionsGo_cons_empty, h]

theorem sectionsGo_cons_fit_ok (d : Str) (mref fuel : Nat) (sec : Str)
    (rest : List Str) (current : Str) (chunks : List Chunk) (idx : Nat)
    (store : Store) (c₂ : Str) (ch₂ : List Chunk) (i₂ : Nat) (st₂ : Store)
    (h : ¬ (current ≠ [] ∧ current.length + sec.length > MAX_CHUNK_SIZE))
    (h2 : current ≠ [])
    (hw : whileSplit d mref fuel (current ++ nl2 ++ sec) chunks idx store = .ok (c₂, ch₂, i₂, st₂)) :
    sectionsGo d mref fuel (sec :: rest) current chunks idx store =
      sectionsGo d mref fuel rest c₂ ch₂ i₂ st₂ := by
  rw [sectionsGo_cons_fit d mref fuel sec rest current chunks idx store h h2, hw]

theorem sectionsGo_cons_emit_ok (d : Str) (mref fuel : Nat) (sec : Str)
    (rest : List Str) (current : Str) (chunks : List Chunk) (idx : Nat)
    (store : Store) (c₂ : Str) (ch₂ : List Chunk) (i₂ : Nat) (st₂ : Store)
    (h : current ≠ [] ∧ current.length + sec.length > MAX_CHUNK_SIZE)
    (h2 : strip current ≠ [])
    (hw : whileSplit d mref fuel (tailN CHUNK_OVERLAP current ++ nl2 ++ sec)
        (chunks ++ [(create_chunk store d (strip current) mref idx).1])
        (idx + 1) (create_chunk store d (strip current) mref idx).2 = .ok (c₂, ch₂, i₂, st₂)) :
    sectionsGo d mref fuel (sec :: rest) current chunks idx store =
      sectionsGo d mref fuel rest c₂ ch₂ i₂ st₂ := by
  rw [sectionsGo_cons_emit d mref fuel sec rest current chunks idx store h h2, hw]

theorem chunk_document_final_emit (content d : Str) (m : Meta) (fuel : Nat)
    (current : Str) (chunks : List Chunk) (idx : Nat) (store : Store)
    (hbig : ¬ content.length ≤ MAX_CHUNK_SIZE)
    (hgo : sectionsGo d 0 fuel (sectionsOf content) [] [] 0 [m] =
      .ok (current, chunks, idx, store))
    (hstrip : strip current ≠ []) :
    chunk_document fuel content d m =
      .ok (chunks ++ [(create_chunk store d (strip current) 0 idx).1],
        backfillGo (chunks.length + 1)
          (chunks ++ [(create_chunk store d (strip current) 0 idx).1])
          (create_chunk store d (strip current) 0 idx).2) := by
  rw [chunk_document, if_neg hbig, hgo]
  simp only [if_pos hstrip]
  have hlen : (chunks ++ [(create_chunk store d (strip current) 0 idx).1]).length
      = chunks.length + 1 := by
    simp
  rw [hlen]
  simp only [if_neg (Nat.succ_ne_zero chunks.length)]

/-! ### The C6 counterexample input and its full evaluation -/

theorem rep_cons_eq (n m : Nat) (c : Char) (h : n = m + 1) :
    List.replicate n c = c :: List.replicate m c := by
  rw [h, List.replicate_succ]

theorem rep_snoc_eq (n m : Nat) (c : Char) (h : n = m + 1) :
    List.replicate n c = List.replicate m c ++ [c] := by
  rw [h, List.replicate_succ']

/-- Metadata dictionary of the chunk at position `i` out of `total`, after
back-filling: the caller's dictionary with `chunk_index` set to `i`,
`total_chunks` first set to the `None` placeholder and then to `total`. -/
def mkMeta (m : Meta) (i total : Nat) : Meta :=
  setk (setk (setk m (("chunk_index").data) (MVal.nat i))
    (("total_chunks").data) MVal.none) (("total_chunks").data) (MVal.nat total)

/-- First section of the C6 input: 8750 `a`s, one space, 249 `b`s
(9000 characters; the space sits exactly `CHUNK_OVERLAP` characters from
the end). -/
def s1b : Str := List.replicate 8750 'a' ++ [' '] ++ List.replicate 249 'b'

/-- Second section of the C6 input: the header `# H` followed by 2000 `c`s. -/
def s2b : Str := ['#', ' ', 'H'] ++ List.replicate 2000 'c'

/-- The C6 input document: `s1b`, newline, `s2b` (11004 characters). -/
def content6 : Str := s1b ++ ['\n'] ++ s2b

theorem s1b_eq_ends : s1b = 'a' ::
    ((List.replicate 8749 'a' ++ [' '] ++ List.replicate 248 'b') ++ ['b']) := by
  rw [s1b, rep_cons_eq 8750 8749 'a' (by decide), rep_snoc_eq 249 248 'b' (by decide)]
  simp [-List.reduceReplicate, List.append_assoc]

theorem s2b_eq_ends : s2b = '#' ::
    (([' ', 'H'] ++ List.replicate 1999 'c') ++ ['c']) := by
  rw [s2b, rep_snoc_eq 2000 1999 'c' (by decide)]
  simp [-List.reduceReplicate, List.append_assoc]

theorem s1b_length : s1b.length = 9000 := by
  simp [-List.reduceReplicate, s1b]

theorem s2b_length : s2b.length = 2003 := by
  simp [-List.reduceReplicate, s2b]

theorem content6_length : content6.length = 11004 := by
  simp [-List.reduceReplicate, content6, s1b_length, s2b_length]

theorem s1b_no_nl : ∀ c ∈ s1b, c ≠ '\n' := by
  intro c hc
  rw [s1b] at hc
  rcases List.mem_append.mp hc with h | h
  · rcases List.mem_append.mp h with h1 | h1
    · rw [List.eq_of_mem_replicate h1]
      decide
    · simp at h1
      rw [h1]
      decide
  · rw [List.eq_of_mem_replicate h]
    decide

theorem s2b_no_nl : ∀ c ∈ s2b, c ≠ '\n' := by
  intro c hc
  rw [s2b] at hc
  rcases List.mem_append.mp hc with h | h
  · simp at h
    rcases h with h1 | h1 | h1 <;> (rw [h1]; decide)
  · rw [List.eq_of_mem_replicate h]
    decide

theorem s2b_is_header : isHeaderStart s2b = true := by
  rw [s2b]
  rfl

theorem s1b_ne_nil : s1b ≠ [] := by
  rw [s1b_eq_ends]
  simp [-List.reduceReplicate]

theorem s2b_ne_nil : s2b ≠ [] := by
  rw [s2b_eq_ends]
  simp [-List.reduceReplicate]

theorem strip_s1b : strip s1b = s1b := by
  rw [s1b_eq_ends]
  exact strip_eq_self_of_ends 'a' 'b' _ (by decide) (by decide)

theorem strip_s2b : strip s2b = s2b := by
  rw [s2b_eq_ends]
  exact strip_eq_self_of_ends '#' 'c' _ (by decide) (by decide)

theorem sectionsOf_content6 : sectionsOf content6 = [s1b, s2b] := by
  have h1 : headerSplit content6 = [s1b, s2b] := by
    rw [content6, List.append_assoc, List.singleton_append,
      headerSplit_append_run s1b _ s1b_no_nl,
      headerSplit_nl_of_header s2b s2b_is_header,
      headerSplit_of_no_nl s2b s2b_no_nl]
    simp [-List.reduceReplicate, prependHead]
  rw [sectionsOf, h1]
  simp [-List.reduceReplicate, strip_s1b, strip_s2b, s1b_ne_nil, s2b_ne_nil]

theorem tailN_s1b : tailN CHUNK_OVERLAP s1b = [' '] ++ List.replicate 249 'b' := by
  simp only [s1b, CHUNK_OVERLAP, List.append_assoc]
  exact tailN_append_exact (List.replicate 8750 'a') ([' '] ++ List.replicate 249 'b') 250
    (by simp [-List.reduceReplicate])

/-- The buffer seeded after emitting chunk 0 on the C6 input. -/
def cur6 : Str := ([' '] ++ List.replicate 249 'b') ++ nl2 ++ s2b

theorem cur6_length : cur6.length = 2255 := by
  simp [-List.reduceReplicate, cur6, nl2, s2b_length]

theorem lstrip_append_all_space (w t : Str) (hw : ∀ c ∈ w, isPySpace c = true) :
    lstrip (w ++ t) = lstrip t := by
  induction w with
  | nil => rfl
  | cons c cs ih =>
    rw [List.cons_append, lstrip, List.dropWhile_cons_of_pos (hw c (List.mem_cons_self c cs))]
    exact ih (fun x hx => hw x (List.mem_cons_of_mem c hx))

theorem strip_space_prefix (w : Str) (c c' : Char) (s : Str)
    (hw : ∀ x ∈ w, isPySpace x = true)
    (h : isPySpace c = false) (h' : isPySpace c' = false) :
    strip (w ++ (c :: (s ++ [c']))) = c :: (s ++ [c']) := by
  have h1 : rstrip (w ++ (c :: (s ++ [c']))) = w ++ (c :: (s ++ [c'])) := by
    have := rstrip_append_last (w ++ (c :: s)) c' h'
    simpa [List.append_assoc] using this
  rw [strip, h1, lstrip_append_all_space w _ hw, lstrip_cons_of_not_space _ _ h]

/-- The stripped final buffer on the C6 input: chunk 1's content. -/
def chunk6content : Str := List.replicate 249 'b' ++ nl2 ++ s2b

theorem strip_cur6 : strip cur6 = chunk6content := by
  have hshape : cur6 = [' '] ++ ('b' ::
      ((List.replicate 248 'b' ++ nl2 ++ (['#', ' ', 'H'] ++ List.replicate 1999 'c')) ++ ['c'])) := by
    rw [cur6, s2b, rep_cons_eq 249 248 'b' (by decide), rep_snoc_eq 2000 1999 'c' (by decide)]
    simp [-List.reduceReplicate, List.append_assoc]
  rw [hshape, strip_space_prefix [' '] 'b' 'c' _ (by decide) (by decide) (by decide)]
  rw [chunk6content, s2b, rep_cons_eq 249 248 'b' (by decide), rep_snoc_eq 2000 1999 'c' (by decide)]
  simp [-List.reduceReplicate, List.append_assoc]

theorem chunk6content_ne_nil : chunk6content ≠ [] := by
  rw [chunk6content, rep_cons_eq 249 248 'b' (by decide)]
  simp [-List.reduceReplicate]

/-- Full evaluation of `chunk_document` on the C6 input: two chunks; chunk 0
is `s1b` itself, chunk 1 is the seeded buffer with its leading space
stripped. -/
theorem run6 (fuel : Nat) (d : Str) (m : Meta) :
    chunk_document fuel content6 d m =
      .ok ([⟨d ++ ("_chunk_").data ++ ['0'], s1b, 1⟩,
            ⟨d ++ ("_chunk_").data ++ ['1'], chunk6content, 2⟩],
        [m, mkMeta m 0 2, mkMeta m 1 2]) := by
  have h1 : whileSplit d 0 fuel s1b [] 0 [m] = .ok (s1b, [], 0, [m]) :=
    whileSplit_exit d 0 fuel s1b [] 0 [m] (by rw [s1b_length]; decide)
  have hck0 : create_chunk [m] d (strip s1b) 0 0 =
      (⟨d ++ ("_chunk_").data ++ ['0'], s1b, 1⟩, [m, setk (setk m (("chunk_index").data) (MVal.nat 0)) (("total_chunks").data) MVal.none]) := by
    rw [strip_s1b]
    rfl
  have h2 : whileSplit d 0 fuel (tailN CHUNK_OVERLAP s1b ++ nl2 ++ s2b)
      ([] ++ [(create_chunk [m] d (strip s1b) 0 0).1]) (0 + 1)
      (create_chunk [m] d (strip s1b) 0 0).2 =
      .ok (cur6, [⟨d ++ ("_chunk_").data ++ ['0'], s1b, 1⟩], 1,
        [m, setk (setk m (("chunk_index").data) (MVal.nat 0)) (("total_chunks").data) MVal.none]) := by
    rw [hck0, tailN_s1b]
    exact whileSplit_exit d 0 fuel _ _ _ _ (by rw [show ([' '] ++ List.replicate 249 'b') ++ nl2 ++ s2b = cur6 from rfl, cur6_length]; decide)
  have hgo : sectionsGo d 0 fuel [s1b, s2b] [] [] 0 [m] =
      .ok (cur6, [⟨d ++ ("_chunk_").data ++ ['0'], s1b, 1⟩], 1,
        [m, setk (setk m (("chunk_index").data) (MVal.nat 0)) (("total_chunks").data) MVal.none]) := by
    rw [sectionsGo_cons_empty_ok d 0 fuel s1b [s2b] [] 0 [m] _ _ _ _ h1,
      sectionsGo_cons_emit_ok d 0 fuel s2b [] s1b [] 0 [m] _ _ _ _
        ⟨s1b_ne_nil, by rw [s1b_length, s2b_length]; decide⟩
        (by rw [strip_s1b]; exact s1b_ne_nil) h2,
      sectionsGo_nil]
  rw [chunk_document_final_emit content6 d m fuel cur6 _ 1 _
    (by rw [content6_length]; decide) (by rw [sectionsOf_content6]; exact hgo)
    (by rw [strip_cur6]; exact chunk6content_ne_nil)]
  rw [strip_cur6]
  rfl

theorem isPrefixOf_false_of_head (a b : Char) (as bs : Str) (h : (a == b) = false) :
    List.isPrefixOf (a :: as) (b :: bs) = false := by
  simp only [List.isPrefixOf, h, Bool.false_and]

theorem chunk6content_cons :
    chunk6content = 'b' :: (List.replicate 248 'b' ++ nl2 ++ s2b) := by
  rw [chunk6content, rep_cons_eq 249 248 'b' (by decide)]
  simp only [List.cons_append]

/-- C6 counterexample: on `content6` the result has two chunks, chunk 0 is
`s1b`, but chunk 1 does not start with the `CHUNK_OVERLAP`-character suffix
of chunk 0's finalized text — the suffix starts with a space that the
`strip()` of the seeded buffer removed. -/
theorem C6_cx :
    chunk_document 1 content6 ("doc").data [] =
      .ok ([⟨("doc").data ++ ("_chunk_").data ++ ['0'], s1b, 1⟩,
            ⟨("doc").data ++ ("_chunk_").data ++ ['1'], chunk6content, 2⟩],
        [[], mkMeta [] 0 2, mkMeta [] 1 2]) ∧
    strip s1b = s1b ∧
    (tailN CHUNK_OVERLAP s1b).isPrefixOf chunk6content = false := by
  refine ⟨run6 1 ("doc").data [], strip_s1b, ?_⟩
  rw [tailN_s1b, List.singleton_append, chunk6content_cons]
  exact isPrefixOf_false_of_head ' ' 'b' _ _ (by decide)

/-! ### The C5 counterexample input -/

/-- First section of the C5 input: 9000 `a`s. -/
def s1a : Str := List.replicate 9000 'a'

/-- Header line of the C5 input's second section. -/
def hdr5 : Str := ['#', '#', ' ', 'H', '\n']

/-- First paragraph of the C5 input's second section (9900 characters). -/
def p5b : Str := hdr5 ++ List.replicate 9895 'b'

/-- Second paragraph of the C5 input's second section (50 characters). -/
def p5c : Str := List.replicate 50 'c'

/-- Second section of the C5 input (9952 characters). -/
def s2a : Str := p5b ++ nl2 ++ p5c

/-- The C5 input document (18953 characters); both sections and all their
paragraphs are at most `MAX_CHUNK_SIZE` characters long. -/
def content5 : Str := s1a ++ ['\n'] ++ s2a

/-- The 250-character overlap drawn from `s1a`. -/
def a250 : Str := List.replicate 250 'a'

/-- The buffer entering the `while` loop on the C5 input (10204 characters). -/
def cur5 : Str := a250 ++ nl2 ++ s2a

/-- The oversized buffer emitted as chunk 2 on the C5 input
(10152 characters — more than `MAX_CHUNK_SIZE`). -/
def tmp5 : Str := a250 ++ nl2 ++ p5b

/-- The final buffer on the C5 input (302 characters), emitted as chunk 3. -/
def tmp5b : Str := List.replicate 250 'b' ++ nl2 ++ p5c

theorem a250_length : a250.length = 250 := by
  simp [-List.reduceReplicate, a250]

theorem s1a_length : s1a.length = 9000 := by
  simp [-List.reduceReplicate, s1a]

theorem p5b_length : p5b.length = 9900 := by
  simp [-List.reduceReplicate, p5b, hdr5]

theorem p5c_length : p5c.length = 50 := by
  simp [-List.reduceReplicate, p5c]

theorem s2a_length : s2a.length = 9952 := by
  simp [-List.reduceReplicate, s2a, p5b_length, p5c_length, nl2]

theorem content5_length : content5.length = 18953 := by
  simp [-List.reduceReplicate, content5, s1a_length, s2a_length]

theorem cur5_length : cur5.length = 10204 := by
  simp [-List.reduceReplicate, cur5, a250_length, s2a_length, nl2]

theorem tmp5_length : tmp5.length = 10152 := by
  simp [-List.reduceReplicate, tmp5, a250_length, p5b_length, nl2]

theorem tmp5b_length : tmp5b.length = 302 := by
  simp [-List.reduceReplicate, tmp5b, p5c_length, nl2]

theorem s1a_no_nl : ∀ c ∈ s1a, c ≠ '\n' := by
  rw [s1a]
  exact replicate_ne_nl _ 'a' (by decide)

theorem p5c_no_nl : ∀ c ∈ p5c, c ≠ '\n' := by
  rw [p5c]
  exact replicate_ne_nl _ 'c' (by decide)

theorem s2a_is_header : isHeaderStart s2a = true := by
  rw [s2a, p5b, hdr5]
  rfl

theorem strip_s1a : strip s1a = s1a := by
  simp only [s1a]
  exact strip_replicate_not_space 9000 'a' (by decide)

theorem strip_a250 : strip a250 = a250 := by
  simp only [a250]
  exact strip_replicate_not_space 250 'a' (by decide)

theorem s1a_ne_nil : s1a ≠ [] := by
  intro h
  have := s1a_length
  rw [h] at this
  simp at this

theorem a250_ne_nil : a250 ≠ [] := by
  intro h
  have := a250_length
  rw [h] at this
  simp at this

theorem s2a_eq_ends : s2a = '#' ::
    ((['#', ' ', 'H', '\n'] ++ List.replicate 9895 'b' ++ nl2 ++ List.replicate 49 'c') ++ ['c']) := by
  rw [s2a, p5b, p5c, hdr5, rep_snoc_eq 50 49 'c' (by decide)]
  simp [-List.reduceReplicate, List.append_assoc]

theorem strip_s2a : strip s2a = s2a := by
  rw [s2a_eq_ends]
  exact strip_eq_self_of_ends '#' 'c' _ (by decide) (by decide)

theorem s2a_ne_nil : s2a ≠ [] := by
  rw [s2a_eq_ends]
  simp [-List.reduceReplicate]

theorem tmp5_eq_ends : tmp5 = 'a' ::
    ((List.replicate 249 'a' ++ nl2 ++ (hdr5 ++ List.replicate 9894 'b')) ++ ['b']) := by
  rw [tmp5, p5b, a250, rep_cons_eq 250 249 'a' (by decide), rep_snoc_eq 9895 9894 'b' (by decide)]
  simp [-List.reduceReplicate, List.append_assoc]

theorem strip_tmp5 : strip tmp5 = tmp5 := by
  rw [tmp5_eq_ends]
  exact strip_eq_self_of_ends 'a' 'b' _ (by decide) (by decide)

theorem tmp5_ne_nil : tmp5 ≠ [] := by
  rw [tmp5_eq_ends]
  simp [-List.reduceReplicate]

theorem tmp5b_eq_ends : tmp5b = 'b' ::
    ((List.replicate 249 'b' ++ nl2 ++ List.replicate 49 'c') ++ ['c']) := by
  rw [tmp5b, p5c, rep_cons_eq 250 249 'b' (by decide), rep_snoc_eq 50 49 'c' (by decide)]
  simp [-List.reduceReplicate, List.append_assoc]

theorem strip_tmp5b : strip tmp5b = tmp5b := by
  rw [tmp5b_eq_ends]
  exact strip_eq_self_of_ends 'b' 'c' _ (by decide) (by decide)

theorem tmp5b_ne_nil : tmp5b ≠ [] := by
  rw [tmp5b_eq_ends]
  simp [-List.reduceReplicate]

theorem isHeaderStart_cons_ne (c : Char) (s : Str) (hc : c ≠ '#') :
    isHeaderStart (c :: s) = false := by
  simp [isHeaderStart, List.takeWhile_cons, hc]

/-- `s2a` in the right-associated form the splitter lemmas need. -/
theorem s2a_norm : s2a =
    ['#', '#', ' ', 'H'] ++ ('\n' :: (List.replicate 9895 'b' ++ (nl2 ++ p5c))) := by
  rw [s2a, p5b, hdr5]
  simp [-List.reduceReplicate, List.append_assoc]

theorem headerSplit_s2a : headerSplit s2a = [s2a] := by
  have hb : List.replicate 9895 'b' ++ (nl2 ++ p5c) =
      'b' :: (List.replicate 9894 'b' ++ (nl2 ++ p5c)) := by
    rw [rep_cons_eq 9895 9894 'b' (by decide), List.cons_append]
  have hnl2 : (nl2 ++ p5c : Str) = '\n' :: ('\n' :: p5c) := rfl
  have h3 : headerSplit ('\n' :: p5c) = ['\n' :: p5c] := by
    rw [p5c, rep_cons_eq 50 49 'c' (by decide),
      headerSplit_nl_of_not_header _ (isHeaderStart_cons_ne 'c' _ (by decide)),
      headerSplit_cons_of_ne 'c' _ (by decide),
      headerSplit_of_no_nl _ (replicate_ne_nl _ 'c' (by decide))]
    rfl
  have h4 : headerSplit (nl2 ++ p5c) = [nl2 ++ p5c] := by
    rw [hnl2, headerSplit_nl_of_not_header _ (isHeaderStart_cons_ne '\n' _ (by decide)), h3]
    rfl
  have h5 : headerSplit (List.replicate 9895 'b' ++ (nl2 ++ p5c)) =
      [List.replicate 9895 'b' ++ (nl2 ++ p5c)] := by
    rw [headerSplit_append_run _ _ (replicate_ne_nl _ 'b' (by decide)), h4]
    rfl
  have h6 : headerSplit ('\n' :: (List.replicate 9895 'b' ++ (nl2 ++ p5c))) =
      ['\n' :: (List.replicate 9895 'b' ++ (nl2 ++ p5c))] := by
    rw [hb, headerSplit_nl_of_not_header _ (isHeaderStart_cons_ne 'b' _ (by decide)), ← hb, h5]
    rfl
  rw [s2a_norm, headerSplit_append_run _ _ (by decide), h6]
  rfl

theorem sectionsOf_content5 : sectionsOf content5 = [s1a, s2a] := by
  have h1 : headerSplit content5 = [s1a, s2a] := by
    rw [content5, List.append_assoc, List.singleton_append,
      headerSplit_append_run s1a _ s1a_no_nl,
      headerSplit_nl_of_header s2a s2a_is_header, headerSplit_s2a]
    simp [-List.reduceReplicate, prependHead]
  rw [sectionsOf, h1]
  simp [-List.reduceReplicate, strip_s1a, strip_s2a, s1a_ne_nil, s2a_ne_nil]

theorem tailN_of_length_le (s : Str) (n : Nat) (h : s.length ≤ n) : tailN n s = s := by
  rw [tailN, Nat.sub_eq_zero_of_le h, List.drop_zero]

theorem tailN_a250 : tailN CHUNK_OVERLAP a250 = a250 := by
  simp only [CHUNK_OVERLAP]
  exact tailN_of_length_le a250 250 (by rw [a250_length])

theorem tmp5_split : tmp5 =
    (a250 ++ nl2 ++ (hdr5 ++ List.replicate 9645 'b')) ++ List.replicate 250 'b' := by
  rw [tmp5, p5b, show (9895 : Nat) = 9645 + 250 by decide, List.replicate_add]
  simp [-List.reduceReplicate, List.append_assoc]

theorem tailN_tmp5 : tailN CHUNK_OVERLAP tmp5 = List.replicate 250 'b' := by
  simp only [CHUNK_OVERLAP, tmp5_split]
  exact tailN_append_exact _ _ 250 (by simp [-List.reduceReplicate])

theorem paras_p5c : splitParas p5c = [p5c] := by
  rw [p5c]
  exact splitParas_of_no_nl _ (replicate_ne_nl _ 'c' (by decide))

theorem paras_s2a : splitParas s2a = [p5b, p5c] := by
  have hb : List.replicate 9895 'b' ++ (nl2 ++ p5c) =
      'b' :: (List.replicate 9894 'b' ++ (nl2 ++ p5c)) := by
    rw [rep_cons_eq 9895 9894 'b' (by decide), List.cons_append]
  have hA : splitParas (nl2 ++ p5c) = [[], p5c] := by
    rw [show (nl2 ++ p5c : Str) = '\n' :: '\n' :: p5c from rfl, splitParas_nl2_cons, paras_p5c]
  have hB : splitParas (List.replicate 9895 'b' ++ (nl2 ++ p5c)) =
      [List.replicate 9895 'b', p5c] := by
    rw [splitParas_append_run _ _ (replicate_ne_nl _ 'b' (by decide)), hA]
    simp [-List.reduceReplicate, prependHead]
  have hC : splitParas ('\n' :: (List.replicate 9895 'b' ++ (nl2 ++ p5c))) =
      ('\n' :: List.replicate 9895 'b') :: [p5c] := by
    rw [hb, splitParas_nl_cons_of_ne 'b' _ (by decide), ← List.cons_append,
      ← rep_cons_eq 9895 9894 'b' (by decide), hB]
    rw [consHead_cons]
  rw [s2a_norm, splitParas_append_run _ _ (by decide), hC, prependHead_cons]
  have hp : (['#', '#', ' ', 'H'] : Str) ++ ('\n' :: List.replicate 9895 'b') = p5b := by
    rw [p5b, hdr5]
    simp [-List.reduceReplicate]
  rw [hp]

theorem cur5_norm : cur5 = a250 ++ (nl2 ++ s2a) := by
  rw [cur5, List.append_assoc]

theorem paras_cur5 : splitParas cur5 = [a250, p5b, p5c] := by
  rw [cur5_norm, splitParas_append_run _ _ (by rw [a250]; exact replicate_ne_nl _ 'a' (by decide)),
    show (nl2 ++ s2a : Str) = '\n' :: '\n' :: s2a from rfl, splitParas_nl2_cons, paras_s2a]
  simp [-List.reduceReplicate, prependHead]

/-- The full paragraph-fallback pass on the C5 buffer: emits the 250-character
overlap piece and then the 10152-character oversized buffer, returning the
302-character remainder. -/
theorem split5 (d : Str) (ch : List Chunk) (i : Nat) (st : Store) :
    split_by_paragraphs cur5 d 0 ch i st =
      (tmp5b,
       (ch ++ [(create_chunk st d a250 0 i).1]) ++
         [(create_chunk (create_chunk st d a250 0 i).2 d tmp5 0 (i + 1)).1],
       (create_chunk (create_chunk st d a250 0 i).2 d tmp5 0 (i + 1)).2) := by
  rw [split_by_paragraphs, paras_cur5,
    paraGo_cons_fit d 0 a250 [p5b, p5c] [] ch i st
      (by rw [List.length_nil, a250_length]; decide),
    if_neg (by simp),
    paraGo_cons_emit d 0 p5b [p5c] a250 ch i st
      (by rw [a250_length, p5b_length]; decide)
      (by rw [strip_a250]; exact a250_ne_nil) a250_ne_nil,
    strip_a250, tailN_a250,
    show (a250 ++ nl2 ++ p5b : Str) = tmp5 from rfl,
    paraGo_cons_emit d 0 p5c [] tmp5 _ _ _
      (by rw [tmp5_length, p5c_length]; decide)
      (by rw [strip_tmp5]; exact tmp5_ne_nil) tmp5_ne_nil,
    strip_tmp5, tailN_tmp5,
    show (List.replicate 250 'b' ++ nl2 ++ p5c : Str) = tmp5b from rfl,
    paraGo_nil]

theorem whileSplit_step_ok (d : Str) (mref f : Nat) (current : Str)
    (ch : List Chunk) (i : Nat) (st : Store) (temp : Str) (ch' : List Chunk)
    (st' : Store) (R : Except ChunkErr (Str × List Chunk × Nat × Store))
    (h : current.length > MAX_CHUNK_SIZE)
    (hsplit : split_by_paragraphs current d mref ch i st = (temp, ch', st'))
    (hrest : whileSplit d mref f temp ch' ch'.length st' = R) :
    whileSplit d mref (f + 1) current ch i st = R := by
  rw [whileSplit_step d mref f current ch i st h, hsplit]
  exact hrest

theorem split5_ok (d : Str) (ch : List Chunk) (i : Nat) (st : Store)
    (c1 c2 : Chunk) (st1 st2 : Store)
    (h1 : create_chunk st d a250 0 i = (c1, st1))
    (h2 : create_chunk st1 d tmp5 0 (i + 1) = (c2, st2)) :
    split_by_paragraphs cur5 d 0 ch i st = (tmp5b, (ch ++ [c1]) ++ [c2], st2) := by
  rw [split5 d ch i st]
  simp only [h1, h2]

theorem s1a_split : s1a = List.replicate 8750 'a' ++ List.replicate 250 'a' := by
  rw [s1a, ← List.replicate_add]

theorem tailN_s1a : tailN CHUNK_OVERLAP s1a = a250 := by
  simp only [CHUNK_OVERLAP, s1a_split, a250]
  exact tailN_append_exact _ _ 250 (by simp [-List.reduceReplicate])

/-- Metadata dictionary allocated by `_create_chunk` before back-filling. -/
def preMeta (m : Meta) (i : Nat) : Meta :=
  setk (setk m (("chunk_index").data) (MVal.nat i)) (("total_chunks").data) MVal.none

/-- Full evaluation of `chunk_document` on the C5 input: four chunks of
lengths 9000, 250, 10152 and 302; the third chunk exceeds `MAX_CHUNK_SIZE`
even though every section and every paragraph of the input is within the
limit. -/
theorem run5 (f : Nat) (d : Str) (m : Meta) :
    chunk_document (f + 1) content5 d m =
      .ok ([⟨d ++ ("_chunk_").data ++ ['0'], s1a, 1⟩,
            ⟨d ++ ("_chunk_").data ++ ['1'], a250, 2⟩,
            ⟨d ++ ("_chunk_").data ++ ['2'], tmp5, 3⟩,
            ⟨d ++ ("_chunk_").data ++ ['3'], tmp5b, 4⟩],
        [m, mkMeta m 0 4, mkMeta m 1 4, mkMeta m 2 4, mkMeta m 3 4]) := by
  have hck0 : create_chunk [m] d (strip s1a) 0 0 =
      (⟨d ++ ("_chunk_").data ++ ['0'], s1a, 1⟩, [m, preMeta m 0]) := by
    rw [strip_s1a]
    rfl
  have hck1 : create_chunk [m, preMeta m 0] d a250 0 1 =
      (⟨d ++ ("_chunk_").data ++ ['1'], a250, 2⟩, [m, preMeta m 0, preMeta m 1]) := rfl
  have hck2 : create_chunk [m, preMeta m 0, preMeta m 1] d tmp5 0 2 =
      (⟨d ++ ("_chunk_").data ++ ['2'], tmp5, 3⟩,
        [m, preMeta m 0, preMeta m 1, preMeta m 2]) := rfl
  have hsplit : split_by_paragraphs cur5 d 0
      [⟨d ++ ("_chunk_").data ++ ['0'], s1a, 1⟩] 1 [m, preMeta m 0] =
      (tmp5b,
       [⟨d ++ ("_chunk_").data ++ ['0'], s1a, 1⟩,
        ⟨d ++ ("_chunk_").data ++ ['1'], a250, 2⟩,
        ⟨d ++ ("_chunk_").data ++ ['2'], tmp5, 3⟩],
       [m, preMeta m 0, preMeta m 1, preMeta m 2]) := by
    rw [split5_ok d _ 1 _ _ _ _ _ hck1 hck2]
    rfl
  have hw2 : whileSplit d 0 (f + 1) cur5
      [⟨d ++ ("_chunk_").data ++ ['0'], s1a, 1⟩] 1 [m, preMeta m 0] =
      .ok (tmp5b,
        [⟨d ++ ("_chunk_").data ++ ['0'], s1a, 1⟩,
         ⟨d ++ ("_chunk_").data ++ ['1'], a250, 2⟩,
         ⟨d ++ ("_chunk_").data ++ ['2'], tmp5, 3⟩],
        3, [m, preMeta m 0, preMeta m 1, preMeta m 2]) := by
    apply whileSplit_step_ok d 0 f cur5 _ 1 _ tmp5b _ _ _
      (by rw [cur5_length]; decide) hsplit
    exact whileSplit_exit d 0 f tmp5b _ _ _ (by rw [tmp5b_length]; decide)
  have hw3 : whileSplit d 0 (f + 1) (tailN CHUNK_OVERLAP s1a ++ nl2 ++ s2a)
      ([] ++ [(create_chunk [m] d (strip s1a) 0 0).1]) (0 + 1)
      (create_chunk [m] d (strip s1a) 0 0).2 =
      .ok (tmp5b,
        [⟨d ++ ("_chunk_").data ++ ['0'], s1a, 1⟩,
         ⟨d ++ ("_chunk_").data ++ ['1'], a250, 2⟩,
         ⟨d ++ ("_chunk_").data ++ ['2'], tmp5, 3⟩],
        3, [m, preMeta m 0, preMeta m 1, preMeta m 2]) := by
    rw [tailN_s1a, show (a250 ++ nl2 ++ s2a : Str) = cur5 from rfl]
    simp only [hck0, List.nil_append]
    exact hw2
  have hgo : sectionsGo d 0 (f + 1) [s1a, s2a] [] [] 0 [m] =
      .ok (tmp5b,
        [⟨d ++ ("_chunk_").data ++ ['0'], s1a, 1⟩,
         ⟨d ++ ("_chunk_").data ++ ['1'], a250, 2⟩,
         ⟨d ++ ("_chunk_").data ++ ['2'], tmp5, 3⟩],
        3, [m, preMeta m 0, preMeta m 1, preMeta m 2]) := by
    rw [sectionsGo_cons_empty_ok d 0 (f + 1) s1a [s2a] [] 0 [m] _ _ _ _
      (whileSplit_exit d 0 (f + 1) s1a [] 0 [m] (by rw [s1a_length]; decide)),
      sectionsGo_cons_emit_ok d 0 (f + 1) s2a [] s1a [] 0 [m] _ _ _ _
        ⟨s1a_ne_nil, by rw [s1a_length, s2a_length]; decide⟩
        (by rw [strip_s1a]; exact s1a_ne_nil) hw3,
      sectionsGo_nil]
  rw [chunk_document_final_emit content5 d m (f + 1) tmp5b _ 3 _
    (by rw [content5_length]; decide) (by rw [sectionsOf_content5]; exact hgo)
    (by rw [strip_tmp5b]; exact tmp5b_ne_nil)]
  rw [strip_tmp5b]
  rfl

/-- C5 counterexample: every section and every paragraph of `content5` is at
most `MAX_CHUNK_SIZE` characters long, yet the returned chunk at position 2
has content `tmp5` of 10152 characters — more than `MAX_CHUNK_SIZE` — because
its buffer was seeded with the `CHUNK_OVERLAP`-character overlap prefix. -/
theorem C5_cx :
    (∀ s ∈ sectionsOf content5, s.length ≤ MAX_CHUNK_SIZE ∧
      ∀ p ∈ splitParas s, p.length ≤ MAX_CHUNK_SIZE) ∧
    chunk_document 1 content5 ("doc").data [] =
      .ok ([⟨("doc").data ++ ("_chunk_").data ++ ['0'], s1a, 1⟩,
            ⟨("doc").data ++ ("_chunk_").data ++ ['1'], a250, 2⟩,
            ⟨("doc").data ++ ("_chunk_").data ++ ['2'], tmp5, 3⟩,
            ⟨("doc").data ++ ("_chunk_").data ++ ['3'], tmp5b, 4⟩],
        [[], mkMeta [] 0 4, mkMeta [] 1 4, mkMeta [] 2 4, mkMeta [] 3 4]) ∧
    tmp5.length > MAX_CHUNK_SIZE := by
  refine ⟨?_, run5 0 ("doc").data [], by rw [tmp5_length]; decide⟩
  rw [sectionsOf_content5]
  intro s hs
  rcases List.mem_cons.mp hs with h | h
  · subst h
    constructor
    · rw [s1a_length]; decide
    · rw [s1a, splitParas_of_no_nl _ (replicate_ne_nl _ 'a' (by decide))]
      intro p hp
      rw [List.mem_singleton.mp hp, List.length_replicate]
      decide
  · rw [List.mem_singleton.mp h]
    constructor
    · rw [s2a_length]; decide
    · rw [paras_s2a]
      intro p hp
      rcases List.mem_cons.mp hp with h2 | h2
      · rw [h2, p5b_length]; decide
      · rw [List.mem_singleton.mp h2, p5c_length]; decide

/-! ### Strip idempotence -/

theorem dropWhile_head_false (p : Char → Bool) (s : Str) (c : Char) (rest : Str)
    (h : s.dropWhile p = c :: rest) : p c = false := by
  induction s with
  | nil => simp at h
  | cons a s' ih =>
    rw [List.dropWhile_cons] at h
    by_cases ha : p a = true
    · rw [if_pos ha] at h
      exact ih h
    · rw [if_neg ha] at h
      cases h
      simpa using ha

theorem lstrip_idem (s : Str) : lstrip (lstrip s) = lstrip s := by
  rw [lstrip, lstrip]
  cases h : s.dropWhile isPySpace with
  | nil => rfl
  | cons c rest =>
    rw [List.dropWhile_cons_of_neg (by simp [dropWhile_head_false isPySpace s c rest h])]

theorem rstrip_idem (s : Str) : rstrip (rstrip s) = rstrip s := by
  rw [rstrip, rstrip, List.reverse_reverse]
  have := lstrip_idem s.reverse
  rw [lstrip, lstrip] at this
  rw [this]

theorem rstrip_cons (c : Char) (x : Str) :
    rstrip (c :: x) = if rstrip x = [] then (if isPySpace c then [] else [c])
      else c :: rstrip x := by
  by_cases h : rstrip x = []
  · have h' : x.reverse.dropWhile isPySpace = [] := by
      rw [rstrip] at h
      simpa using h
    rw [if_pos h, rstrip, List.reverse_cons, List.dropWhile_append, h']
    cases hc : isPySpace c with
    | true => simp [List.dropWhile_cons, hc]
    | false => simp [List.dropWhile_cons, hc]
  · have h' : x.reverse.dropWhile isPySpace ≠ [] := by
      intro hh
      exact h (by rw [rstrip, hh]; rfl)
    rw [if_neg h, rstrip, List.reverse_cons, List.dropWhile_append,
      if_neg (by simpa [List.isEmpty_iff] using h')]
    rw [List.reverse_append, rstrip]
    rfl

theorem rstrip_lstrip_comm (x : Str) : rstrip (lstrip x) = lstrip (rstrip x) := by
  induction x with
  | nil => rfl
  | cons c x' ih =>
    by_cases hc : isPySpace c = true
    · rw [lstrip_cons_of_space c x' hc, ih, rstrip_cons]
      by_cases h : rstrip x' = []
      · rw [if_pos h, if_pos hc, h]
      · rw [if_neg h, lstrip_cons_of_space c (rstrip x') hc]
    · have hcf : isPySpace c = false := by simpa using hc
      rw [lstrip_cons_of_not_space c x' hcf, rstrip_cons]
      by_cases h : rstrip x' = []
      · rw [if_pos h, if_neg hc, lstrip_cons_of_not_space c [] hcf]
      · rw [if_neg h, lstrip_cons_of_not_space c (rstrip x') hcf]

theorem strip_idem (s : Str) : strip (strip s) = strip s := by
  rw [strip, strip, rstrip_lstrip_comm, lstrip_idem, rstrip_idem]

theorem strip_ne_nil_ne (s : Str) (h : strip s ≠ []) : s ≠ [] := by
  intro hs
  rw [hs] at h
  exact h rfl

/-! ### Dictionary lemmas -/

theorem getk_setk_self (m : Meta) (k : Str) (v : MVal) :
    getk (setk m k v) k = some v := by
  induction m with
  | nil =>
    simp [setk, getk]
  | cons p rest ih =>
    obtain ⟨a, b⟩ := p
    rw [setk]
    by_cases h : a = k
    · rw [if_pos h, getk, if_pos rfl]
    · rw [if_neg h, getk, if_neg h, ih]

theorem getk_setk_ne (m : Meta) (k k' : Str) (v : MVal) (h : k' ≠ k) :
    getk (setk m k v) k' = getk m k' := by
  induction m with
  | nil =>
    simp only [setk, getk]
    rw [if_neg (fun hh => h hh.symm)]
  | cons p rest ih =>
    obtain ⟨a, b⟩ := p
    rw [setk]
    by_cases ha : a = k
    · have hL : getk ((k, v) :: rest) k' = getk rest k' := by
        rw [getk, if_neg (fun hh => h hh.symm)]
      have hR : getk ((a, b) :: rest) k' = getk rest k' := by
        rw [getk, if_neg (fun (hh : a = k') => h (hh ▸ ha))]
      rw [if_pos ha, hL, hR]
    · have hL : getk ((a, b) :: setk rest k v) k' =
          if a = k' then some b else getk (setk rest k v) k' := by
        rw [getk]
      have hR : getk ((a, b) :: rest) k' = if a = k' then some b else getk rest k' := by
        rw [getk]
      rw [if_neg ha, hL, hR, ih]

/-! ### Store lemmas -/

theorem getD_append_lt (l l' : Store) (n : Nat) (h : n < l.length) :
    (l ++ l').getD n [] = l.getD n [] := by
  induction l generalizing n with
  | nil => simp at h
  | cons a rest ih =>
    cases n with
    | zero => rfl
    | succ k =>
      simp only [List.cons_append, List.getD_cons_succ]
      exact ih k (by simpa using h)

theorem getD_append_len (l : Store) (x : Meta) :
    (l ++ [x]).getD l.length [] = x := by
  induction l with
  | nil => rfl
  | cons a rest ih => simp

theorem getD_set_eq (l : Store) (n : Nat) (x : Meta) (h : n < l.length) :
    (l.set n x).getD n [] = x := by
  induction l generalizing n with
  | nil => simp at h
  | cons a rest ih =>
    cases n with
    | zero => rfl
    | succ k =>
      simp only [List.set_cons_succ, List.getD_cons_succ]
      exact ih k (by simpa using h)

theorem getD_set_ne (l : Store) (n i : Nat) (x : Meta) (h : i ≠ n) :
    (l.set n x).getD i [] = l.getD i [] := by
  induction l generalizing n i with
  | nil => simp
  | cons a rest ih =>
    cases n with
    | zero =>
      cases i with
      | zero => exact absurd rfl h
      | succ j => rfl
    | succ k =>
      cases i with
      | zero => rfl
      | succ j =>
        simp only [List.set_cons_succ, List.getD_cons_succ]
        exact ih k j (fun hh => h (by rw [hh]))

theorem setk_setk_same (m : Meta) (k : Str) (v v' : MVal) :
    setk (setk m k v) k v' = setk m k v' := by
  induction m with
  | nil => simp [setk]
  | cons p rest ih =>
    obtain ⟨a, b⟩ := p
    rw [setk]
    by_cases h : a = k
    · rw [if_pos h, setk, if_pos rfl, setk, if_pos h]
    · rw [if_neg h, setk, if_neg h, setk, if_neg h, ih]

/-! ### The chunk/store invariant -/

/-- Invariant tying the chunk list to the store: the caller's dictionary sits
unchanged at reference 0; the chunk at position `j` references dictionary
`j + 1`, which holds the caller's pairs with `chunk_index = j` and the
`total_chunks` placeholder; and every chunk's content is a non-empty,
whitespace-stripped string. -/
def Inv (m : Meta) (chunks : List Chunk) (store : Store) : Prop :=
  store.getD 0 [] = m ∧
  store.length = chunks.length + 1 ∧
  (∀ j (hj : j < chunks.length),
    (chunks.get ⟨j, hj⟩).metaRef = j + 1 ∧ store.getD (j + 1) [] = preMeta m j) ∧
  (∀ c ∈ chunks, c.content ≠ [] ∧ strip c.content = c.content)

theorem Inv_nil (m : Meta) : Inv m [] [m] := by
  refine ⟨rfl, rfl, ?_, ?_⟩
  · intro j hj
    simp at hj
  · intro c hc
    simp at hc

theorem Inv_emit (m : Meta) (chunks : List Chunk) (store : Store) (d : Str)
    (temp : Str) (h : Inv m chunks store) (hstrip : strip temp ≠ []) :
    Inv m (chunks ++ [(create_chunk store d (strip temp) 0 chunks.length).1])
      (create_chunk store d (strip temp) 0 chunks.length).2 := by
  obtain ⟨h0, hlen, hj, hc⟩ := h
  have hck : create_chunk store d (strip temp) 0 chunks.length =
      (⟨d ++ ("_chunk_").data ++ natDigits chunks.length, strip temp, store.length⟩,
       store ++ [preMeta m chunks.length]) := by
    rw [create_chunk, h0]
    rfl
  rw [hck]
  refine ⟨?_, ?_, ?_, ?_⟩
  · rw [getD_append_lt store _ 0 (by omega)]
    exact h0
  · simp [hlen]
  · intro j hj2
    rw [List.length_append, List.length_singleton] at hj2
    by_cases hlt : j < chunks.length
    · have hget : (chunks ++ [(⟨d ++ ("_chunk_").data ++ natDigits chunks.length,
          strip temp, store.length⟩ : Chunk)]).get ⟨j, by simp; omega⟩ =
          chunks.get ⟨j, hlt⟩ := by
        rw [List.get_append _ hlt]
      rw [hget, getD_append_lt store _ (j + 1) (by omega)]
      exact hj j hlt
    · have heq : j = chunks.length := by omega
      subst heq
      have hget : (chunks ++ [(⟨d ++ ("_chunk_").data ++ natDigits chunks.length,
          strip temp, store.length⟩ : Chunk)]).get ⟨chunks.length, by simp⟩ =
          ⟨d ++ ("_chunk_").data ++ natDigits chunks.length, strip temp, store.length⟩ := by
        rw [List.get_append_right] <;> simp
      rw [hget]
      constructor
      · simp [hlen]
      · rw [← hlen, getD_append_len]
  · intro c hcm
    rcases List.mem_append.mp hcm with h1 | h1
    · exact hc c h1
    · rw [List.mem_singleton.mp h1]
      exact ⟨hstrip, strip_idem temp⟩

theorem paraGo_cons_skip_ws (d : Str) (mref : Nat) (para : Str) (rest : List Str)
    (temp : Str) (chunks : List Chunk) (idx : Nat) (store : Store)
    (h : temp.length + para.length + 2 > MAX_CHUNK_SIZE)
    (h2 : ¬ strip temp ≠ []) (h3 : temp ≠ []) :
    paraGo d mref (para :: rest) temp chunks idx store =
      paraGo d mref rest (tailN CHUNK_OVERLAP temp ++ nl2 ++ para) chunks idx store := by
  rw [paraGo, if_pos h, if_neg h2, if_pos (show CHUNK_OVERLAP > 0 ∧ temp ≠ [] from ⟨by decide, h3⟩)]

theorem paraGo_inv (m : Meta) (d : Str) (paras : List Str) :
    ∀ temp chunks idx store, Inv m chunks store → idx = chunks.length →
      Inv m (paraGo d 0 paras temp chunks idx store).2.1
        (paraGo d 0 paras temp chunks idx store).2.2 := by
  induction paras with
  | nil =>
    intro temp chunks idx store hInv _
    rw [paraGo_nil]
    exact hInv
  | cons para rest ih =>
    intro temp chunks idx store hInv hidx
    by_cases h1 : temp.length + para.length + 2 > MAX_CHUNK_SIZE
    · by_cases h2 : strip temp ≠ []
      · rw [paraGo_cons_emit d 0 para rest temp chunks idx store h1 h2
          (strip_ne_nil_ne temp h2)]
        subst hidx
        exact ih _ _ _ _ (Inv_emit m chunks store d temp hInv h2) (by simp)
      · by_cases h3 : temp = []
        · subst h3
          rw [paraGo_cons_skip_empty d 0 para rest chunks idx store (by simpa using h1)]
          exact ih _ _ _ _ hInv hidx
        · rw [paraGo_cons_skip_ws d 0 para rest temp chunks idx store h1 h2 h3]
          exact ih _ _ _ _ hInv hidx
    · rw [paraGo_cons_fit d 0 para rest temp chunks idx store h1]
      exact ih _ _ _ _ hInv hidx

theorem whileSplit_zero_stuck (d : Str) (mref : Nat) (current : Str)
    (chunks : List Chunk) (idx : Nat) (store : Store)
    (h : current.length > MAX_CHUNK_SIZE) :
    whileSplit d mref 0 current chunks idx store = .error .fuelOut := by
  rw [whileSplit.eq_def, if_pos h]

theorem whileSplit_inv (m : Meta) (d : Str) :
    ∀ fuel current chunks idx store c₂ ch₂ i₂ st₂,
      Inv m chunks store → idx = chunks.length →
      whileSplit d 0 fuel current chunks idx store = .ok (c₂, ch₂, i₂, st₂) →
      Inv m ch₂ st₂ ∧ i₂ = ch₂.length := by
  intro fuel
  induction fuel with
  | zero =>
    intro current chunks idx store c₂ ch₂ i₂ st₂ hInv hidx heq
    by_cases h : current.length > MAX_CHUNK_SIZE
    · rw [whileSplit_zero_stuck d 0 current chunks idx store h] at heq
      simp at heq
    · rw [whileSplit_exit d 0 0 current chunks idx store h] at heq
      simp only [Except.ok.injEq, Prod.mk.injEq] at heq
      obtain ⟨-, h2, h3, h4⟩ := heq
      subst h2; subst h3; subst h4
      exact ⟨hInv, hidx⟩
  | succ f ih =>
    intro current chunks idx store c₂ ch₂ i₂ st₂ hInv hidx heq
    by_cases h : current.length > MAX_CHUNK_SIZE
    · rw [whileSplit_step d 0 f current chunks idx store h] at heq
      have hsp : split_by_paragraphs current d 0 chunks idx store =
          paraGo d 0 (splitParas current) [] chunks idx store := rfl
      rw [hsp] at heq
      exact ih _ _ _ _ _ _ _ _ (paraGo_inv m d (splitParas current) [] chunks idx store hInv hidx) rfl heq
    · rw [whileSplit_exit d 0 (f + 1) current chunks idx store h] at heq
      simp only [Except.ok.injEq, Prod.mk.injEq] at heq
      obtain ⟨-, h2, h3, h4⟩ := heq
      subst h2; subst h3; subst h4
      exact ⟨hInv, hidx⟩

theorem sectionsGo_cons_skip (d : Str) (mref fuel : Nat) (sec : Str)
    (rest : List Str) (current : Str) (chunks : List Chunk) (idx : Nat)
    (store : Store)
    (h : current ≠ [] ∧ current.length + sec.length > MAX_CHUNK_SIZE)
    (h2 : ¬ strip current ≠ []) :
    sectionsGo d mref fuel (sec :: rest) current chunks idx store =
      match whileSplit d mref fuel (tailN CHUNK_OVERLAP current ++ nl2 ++ sec)
          chunks idx store with
      | .error e => .error e
      | .ok (c₂, ch₂, i₂, st₂) => sectionsGo d mref fuel rest c₂ ch₂ i₂ st₂ := by
  rw [sectionsGo]
  simp only [if_pos h, if_neg h2,
    if_pos (show CHUNK_OVERLAP > 0 ∧ current ≠ [] from ⟨by decide, h.1⟩)]

theorem sectionsGo_inv (m : Meta) (d : Str) (fuel : Nat) (sections : List Str) :
    ∀ current chunks idx store c₂ ch₂ i₂ st₂,
      Inv m chunks store → idx = chunks.length →
      sectionsGo d 0 fuel sections current chunks idx store = .ok (c₂, ch₂, i₂, st₂) →
      Inv m ch₂ st₂ ∧ i₂ = ch₂.length := by
  induction sections with
  | nil =>
    intro current chunks idx store c₂ ch₂ i₂ st₂ hInv hidx heq
    rw [sectionsGo_nil] at heq
    simp only [Except.ok.injEq, Prod.mk.injEq] at heq
    obtain ⟨-, h2, h3, h4⟩ := heq
    subst h2; subst h3; subst h4
    exact ⟨hInv, hidx⟩
  | cons sec rest ih =>
    intro current chunks idx store c₂ ch₂ i₂ st₂ hInv hidx heq
    by_cases h1 : current ≠ [] ∧ current.length + sec.length > MAX_CHUNK_SIZE
    · by_cases h2 : strip current ≠ []
      · rw [sectionsGo_cons_emit d 0 fuel sec rest current chunks idx store h1 h2] at heq
        cases hw : whileSplit d 0 fuel (tailN CHUNK_OVERLAP current ++ nl2 ++ sec)
            (chunks ++ [(create_chunk store d (strip current) 0 idx).1])
            (idx + 1) (create_chunk store d (strip current) 0 idx).2 with
        | error e =>
          rw [hw] at heq
          simp at heq
        | ok tup =>
          obtain ⟨cw, chw, iw, stw⟩ := tup
          rw [hw] at heq
          have hInv2 : Inv m (chunks ++ [(create_chunk store d (strip current) 0 idx).1])
              (create_chunk store d (strip current) 0 idx).2 := by
            subst hidx
            exact Inv_emit m chunks store d current hInv h2
          have hstep := whileSplit_inv m d fuel _ _ _ _ _ _ _ _ hInv2
            (by subst hidx; simp) hw
          exact ih _ _ _ _ _ _ _ _ hstep.1 hstep.2 heq
      · rw [sectionsGo_cons_skip d 0 fuel sec rest current chunks idx store h1 h2] at heq
        cases hw : whileSplit d 0 fuel (tailN CHUNK_OVERLAP current ++ nl2 ++ sec)
            chunks idx store with
        | error e =>
          rw [hw] at heq
          simp at heq
        | ok tup =>
          obtain ⟨cw, chw, iw, stw⟩ := tup
          rw [hw] at heq
          have hstep := whileSplit_inv m d fuel _ _ _ _ _ _ _ _ hInv hidx hw
          exact ih _ _ _ _ _ _ _ _ hstep.1 hstep.2 heq
    · by_cases hne : current = []
      · subst hne
        rw [sectionsGo_cons_empty] at heq
        cases hw : whileSplit d 0 fuel sec chunks idx store with
        | error e =>
          rw [hw] at heq
          simp at heq
        | ok tup =>
          obtain ⟨cw, chw, iw, stw⟩ := tup
          rw [hw] at heq
          have hstep := whileSplit_inv m d fuel _ _ _ _ _ _ _ _ hInv hidx hw
          exact ih _ _ _ _ _ _ _ _ hstep.1 hstep.2 heq
      · rw [sectionsGo_cons_fit d 0 fuel sec rest current chunks idx store h1 hne] at heq
        cases hw : whileSplit d 0 fuel (current ++ nl2 ++ sec) chunks idx store with
        | error e =>
          rw [hw] at heq
          simp at heq
        | ok tup =>
          obtain ⟨cw, chw, iw, stw⟩ := tup
          rw [hw] at heq
          have hstep := whileSplit_inv m d fuel _ _ _ _ _ _ _ _ hInv hidx hw
          exact ih _ _ _ _ _ _ _ _ hstep.1 hstep.2 heq

/-! ### From a successful run to the final store -/

theorem chunk_document_go_noemit (content d : Str) (m : Meta) (fuel : Nat)
    (cur : Str) (ch : List Chunk) (i : Nat) (st : Store)
    (hbig : ¬ content.length ≤ MAX_CHUNK_SIZE)
    (hsec : sectionsGo d 0 fuel (sectionsOf content) [] [] 0 [m] = .ok (cur, ch, i, st))
    (hstrip : ¬ strip cur ≠ []) (hne : ch.length ≠ 0) :
    chunk_document fuel content d m = .ok (ch, backfillGo ch.length ch st) := by
  rw [chunk_document, if_neg hbig, hsec]
  simp only [if_neg hstrip]
  rw [if_neg hne]

theorem chunk_document_go_noemit_zero (content d : Str) (m : Meta) (fuel : Nat)
    (cur : Str) (ch : List Chunk) (i : Nat) (st : Store)
    (hbig : ¬ content.length ≤ MAX_CHUNK_SIZE)
    (hsec : sectionsGo d 0 fuel (sectionsOf content) [] [] 0 [m] = .ok (cur, ch, i, st))
    (hstrip : ¬ strip cur ≠ []) (hz : ch.length = 0) :
    chunk_document fuel content d m = .error .divZero := by
  rw [chunk_document, if_neg hbig, hsec]
  simp only [if_neg hstrip]
  rw [if_pos hz]

theorem chunk_document_ok_inv (fuel : Nat) (content d : Str) (m : Meta)
    (res : List Chunk) (store' : Store)
    (h : chunk_document fuel content d m = .ok (res, store'))
    (hbig : ¬ content.length ≤ MAX_CHUNK_SIZE) :
    ∃ st₂ : Store, Inv m res st₂ ∧ store' = backfillGo res.length res st₂ := by
  cases hsec : sectionsGo d 0 fuel (sectionsOf content) [] [] 0 [m] with
  | error e =>
    rw [chunk_document, if_neg hbig, hsec] at h
    simp at h
  | ok tup =>
    obtain ⟨cur, ch, i, st⟩ := tup
    have hgo := sectionsGo_inv m d fuel (sectionsOf content) [] [] 0 [m] cur ch i st
      (Inv_nil m) rfl hsec
    by_cases hstrip : strip cur ≠ []
    · have h2 := (chunk_document_final_emit content d m fuel cur ch i st hbig hsec hstrip).symm.trans h
      simp only [Except.ok.injEq, Prod.mk.injEq] at h2
      obtain ⟨hres, hst⟩ := h2
      obtain ⟨hInv, hi⟩ := hgo
      subst hi
      refine ⟨(create_chunk st d (strip cur) 0 ch.length).2, ?_, ?_⟩
      · rw [← hres]
        exact Inv_emit m ch st d cur hInv hstrip
      · rw [← hst, ← hres, List.length_append, List.length_singleton]
    · by_cases hz : ch.length = 0
      · have h2 := (chunk_document_go_noemit_zero content d m fuel cur ch i st hbig hsec hstrip hz).symm.trans h
        simp at h2
      · have h2 := (chunk_document_go_noemit content d m fuel cur ch i st hbig hsec hstrip hz).symm.trans h
        simp only [Except.ok.injEq, Prod.mk.injEq] at h2
        obtain ⟨hres, hst⟩ := h2
        subst hres
        exact ⟨st, hgo.1, hst.symm⟩

theorem backfillGo_getD (total : Nat) :
    ∀ (cs : List Chunk) (store : Store) (i : Nat),
      (∀ c ∈ cs, c.metaRef < store.length) →
      (backfillGo total cs store).getD i [] =
        if ∃ c ∈ cs, c.metaRef = i then
          setk (store.getD i []) (("total_chunks").data) (MVal.nat total)
        else store.getD i [] := by
  intro cs
  induction cs with
  | nil =>
    intro store i _
    rw [backfillGo, if_neg (by rintro ⟨c, hc, -⟩; simp at hc)]
  | cons c cs' ih =>
    intro store i hrefs
    rw [backfillGo]
    have hclen : c.metaRef < store.length := hrefs c (List.mem_cons_self c cs')
    have hlen : (store.set c.metaRef
        (setk (store.getD c.metaRef []) (("total_chunks").data) (MVal.nat total))).length
        = store.length := by
      simp
    rw [ih _ i (fun c' hc' => by rw [hlen]; exact hrefs c' (List.mem_cons_of_mem c hc'))]
    by_cases h1 : ∃ c' ∈ cs', c'.metaRef = i
    · have h1' : ∃ c'' ∈ c :: cs', c''.metaRef = i := by
        obtain ⟨c', hc', hr⟩ := h1
        exact ⟨c', List.mem_cons_of_mem c hc', hr⟩
      rw [if_pos h1, if_pos h1']
      by_cases h2 : i = c.metaRef
      · subst h2
        rw [getD_set_eq store c.metaRef _ hclen, setk_setk_same]
      · rw [getD_set_ne store c.metaRef i _ h2]
    · rw [if_neg h1]
      by_cases h2 : c.metaRef = i
      · subst h2
        rw [if_pos ⟨c, List.mem_cons_self c cs', rfl⟩, getD_set_eq store c.metaRef _ hclen]
      · have h2' : ¬ ∃ c'' ∈ c :: cs', c''.metaRef = i := by
          rintro ⟨c', hc', hr⟩
          rcases List.mem_cons.mp hc' with hh | hh
          · exact h2 (hh ▸ hr)
          · exact h1 ⟨c', hh, hr⟩
        rw [if_neg h2', getD_set_ne store c.metaRef i _ (fun hh => h2 hh.symm)]

/-- The state of a successful splitting-path run after back-filling: the
caller's dictionary is unchanged at reference 0; the chunk at position `j`
references dictionary `j + 1`, which holds the caller's pairs with
`chunk_index = j` and `total_chunks = N`; and every chunk's content is a
non-empty stripped string. -/
theorem final_state (fuel : Nat) (content d : Str) (m : Meta)
    (res : List Chunk) (store' : Store)
    (h : chunk_document fuel content d m = .ok (res, store'))
    (hbig : ¬ content.length ≤ MAX_CHUNK_SIZE) :
    store'.getD 0 [] = m ∧
    (∀ j (hj : j < res.length),
      (res.get ⟨j, hj⟩).metaRef = j + 1 ∧
      store'.getD (j + 1) [] = mkMeta m j res.length) ∧
    (∀ c ∈ res, c.content ≠ [] ∧ strip c.content = c.content) := by
  obtain ⟨st₂, hInv, hbf⟩ := chunk_document_ok_inv fuel content d m res store' h hbig
  obtain ⟨h0, hlen, hj, hc⟩ := hInv
  have hrefs : ∀ c ∈ res, c.metaRef < st₂.length := by
    intro c hcm
    obtain ⟨⟨j, hj2⟩, hget⟩ := List.mem_iff_get.mp hcm
    rw [← hget, (hj j hj2).1, hlen]
    omega
  refine ⟨?_, ?_, hc⟩
  · rw [hbf, backfillGo_getD res.length res st₂ 0 hrefs, if_neg ?_]
    · exact h0
    · rintro ⟨c, hcm, hr⟩
      obtain ⟨⟨j, hj2⟩, hget⟩ := List.mem_iff_get.mp hcm
      rw [← hget, (hj j hj2).1] at hr
      exact Nat.succ_ne_zero j hr
  · intro j hj2
    refine ⟨(hj j hj2).1, ?_⟩
    rw [hbf, backfillGo_getD res.length res st₂ (j + 1) hrefs,
      if_pos ⟨res.get ⟨j, hj2⟩, List.get_mem res j hj2, (hj j hj2).1⟩,
      (hj j hj2).2]
    rfl

theorem getk_mkMeta_ci (m : Meta) (i t : Nat) :
    getk (mkMeta m i t) (("chunk_index").data) = some (MVal.nat i) := by
  rw [mkMeta, getk_setk_ne _ _ _ _ (by decide), getk_setk_ne _ _ _ _ (by decide),
    getk_setk_self]

theorem getk_mkMeta_tc (m : Meta) (i t : Nat) :
    getk (mkMeta m i t) (("total_chunks").data) = some (MVal.nat t) := by
  rw [mkMeta, getk_setk_self]

theorem getk_mkMeta_other (m : Meta) (i t : Nat) (k : Str)
    (h1 : k ≠ ("chunk_index").data) (h2 : k ≠ ("total_chunks").data) :
    getk (mkMeta m i t) k = getk m k := by
  rw [mkMeta, getk_setk_ne _ _ _ _ h2, getk_setk_ne _ _ _ _ h2, getk_setk_ne _ _ _ _ h1]

/-! ### C7, C8, C9, C10 -/

/-- C7: for every multi-chunk result, the `chunk_index` values stored in the
chunks' metadata are exactly `0, 1, …, N-1` in emission order, and every
chunk's `total_chunks` equals `N`, the length of the returned list. -/
theorem C7_contiguous (fuel : Nat) (content d : Str) (m : Meta)
    (res : List Chunk) (store' : Store)
    (h : chunk_document fuel content d m = .ok (res, store'))
    (h2 : 2 ≤ res.length) :
    ∀ j (hj : j < res.length),
      getk (metaOf store' (res.get ⟨j, hj⟩)) (("chunk_index").data) =
        some (MVal.nat j) ∧
      getk (metaOf store' (res.get ⟨j, hj⟩)) (("total_chunks").data) =
        some (MVal.nat res.length) := by
  by_cases hbig : content.length ≤ MAX_CHUNK_SIZE
  · have hfast := (fast_path content d m fuel hbig).symm.trans h
    simp only [Except.ok.injEq, Prod.mk.injEq] at hfast
    rw [← hfast.1] at h2
    simp at h2
  · obtain ⟨-, hjj, -⟩ := final_state fuel content d m res store' h hbig
    intro j hj
    rw [metaOf, (hjj j hj).1, (hjj j hj).2]
    exact ⟨getk_mkMeta_ci m j res.length, getk_mkMeta_tc m j res.length⟩

theorem C7_contiguous_witness :
    getk (metaOf [[], mkMeta [] 0 2, mkMeta [] 1 2]
        ⟨("doc").data ++ ("_chunk_").data ++ ['1'], chunk6content, 2⟩)
      (("total_chunks").data) = some (MVal.nat 2) := by
  have h := C7_contiguous 1 content6 ("doc").data []
    [⟨("doc").data ++ ("_chunk_").data ++ ['0'], s1b, 1⟩,
     ⟨("doc").data ++ ("_chunk_").data ++ ['1'], chunk6content, 2⟩]
    [[], mkMeta [] 0 2, mkMeta [] 1 2]
    (run6 1 ("doc").data []) (by decide) 1 (by decide)
  exact h.2

/-- C8 counterexample: with a caller metadata mapping that itself contains a
`chunk_index` key, the splitting path overwrites it — chunk 0's metadata has
`chunk_index = 0`, not the caller's original value. -/
theorem C8_cx :
    chunk_document 1 content6 ("doc").data
        [(("chunk_index").data, MVal.str ("orig").data)] =
      .ok ([⟨("doc").data ++ ("_chunk_").data ++ ['0'], s1b, 1⟩,
            ⟨("doc").data ++ ("_chunk_").data ++ ['1'], chunk6content, 2⟩],
        [[(("chunk_index").data, MVal.str ("orig").data)],
         mkMeta [(("chunk_index").data, MVal.str ("orig").data)] 0 2,
         mkMeta [(("chunk_index").data, MVal.str ("orig").data)] 1 2]) ∧
    getk (mkMeta [(("chunk_index").data, MVal.str ("orig").data)] 0 2)
      (("chunk_index").data) = some (MVal.nat 0) ∧
    MVal.nat 0 ≠ MVal.str ("orig").data := by
  exact ⟨run6 1 ("doc").data [(("chunk_index").data, MVal.str ("orig").data)],
    by decide, by decide⟩

/-- C8 amended: on the splitting path, every caller key other than
`chunk_index` and `total_chunks` appears with its original value in every
chunk's metadata, and the injected `chunk_index`/`total_chunks` keys are
present with integer values (overwriting caller keys of those names); on the
fast path the caller's mapping is passed through unchanged, with no injected
keys. -/
theorem C8_passthrough (fuel : Nat) (content d : Str) (m : Meta)
    (res : List Chunk) (store' : Store)
    (h : chunk_document fuel content d m = .ok (res, store')) :
    (¬ content.length ≤ MAX_CHUNK_SIZE →
      ∀ c ∈ res,
        (∀ k v, k ≠ ("chunk_index").data → k ≠ ("total_chunks").data →
          getk m k = some v → getk (metaOf store' c) k = some v) ∧
        (∃ i, getk (metaOf store' c) (("chunk_index").data) = some (MVal.nat i)) ∧
        (∃ t, getk (metaOf store' c) (("total_chunks").data) = some (MVal.nat t))) ∧
    (content.length ≤ MAX_CHUNK_SIZE →
      res = [⟨d, content, 0⟩] ∧ store' = [m] ∧ metaOf [m] ⟨d, content, 0⟩ = m) := by
  constructor
  · intro hbig c hcm
    obtain ⟨-, hjj, -⟩ := final_state fuel content d m res store' h hbig
    obtain ⟨⟨j, hj2⟩, hget⟩ := List.mem_iff_get.mp hcm
    rw [← hget, metaOf, (hjj j hj2).1, (hjj j hj2).2]
    refine ⟨?_, ⟨j, getk_mkMeta_ci m j res.length⟩, ⟨res.length, getk_mkMeta_tc m j res.length⟩⟩
    intro k v hk1 hk2 hv
    rw [getk_mkMeta_other m j res.length k hk1 hk2]
    exact hv
  · intro hsmall
    have hfast := (fast_path content d m fuel hsmall).symm.trans h
    simp only [Except.ok.injEq, Prod.mk.injEq] at hfast
    exact ⟨hfast.1.symm, hfast.2.symm, rfl⟩

theorem C8_passthrough_witness :
    getk mC3 (("k").data) = some (MVal.str ("v").data) ∧
    metaOf [mC3] ⟨("doc").data, ("hi").data, 0⟩ = mC3 := by
  have h := (C8_passthrough 0 ("hi").data ("doc").data mC3
    [⟨("doc").data, ("hi").data, 0⟩] [mC3]
    (fast_path ("hi").data ("doc").data mC3 0 (by decide))).2 (by decide)
  exact ⟨by decide, h.2.2⟩

/-- C9: `chunk_document` never mutates the caller's metadata dictionary —
after any successful run, the store entry at reference 0 (the caller's
dictionary) holds exactly the pairs it held before the call, on both the
fast path and the splitting path (the `total_chunks` back-fill writes only
to the per-chunk dictionaries at references 1 and above). -/
theorem C9_no_mutation (fuel : Nat) (content d : Str) (m : Meta)
    (res : List Chunk) (store' : Store)
    (h : chunk_document fuel content d m = .ok (res, store')) :
    store'.getD 0 [] = m := by
  by_cases hbig : content.length ≤ MAX_CHUNK_SIZE
  · have hfast := (fast_path content d m fuel hbig).symm.trans h
    simp only [Except.ok.injEq, Prod.mk.injEq] at hfast
    rw [← hfast.2]
    rfl
  · exact (final_state fuel content d m res store' h hbig).1

theorem C9_no_mutation_witness :
    ([[], mkMeta [] 0 2, mkMeta [] 1 2] : Store).getD 0 [] = ([] : Meta) := by
  exact C9_no_mutation 1 content6 ("doc").data []
    [⟨("doc").data ++ ("_chunk_").data ++ ['0'], s1b, 1⟩,
     ⟨("doc").data ++ ("_chunk_").data ++ ['1'], chunk6content, 2⟩]
    [[], mkMeta [] 0 2, mkMeta [] 1 2] (run6 1 ("doc").data [])

/-- C10: on the splitting path (`len(content) > MAX_CHUNK_SIZE`), every
returned chunk has non-empty content equal to its own whitespace-stripped
form, because every emission site strips the buffer and guards on the
stripped text being non-empty. -/
theorem C10_stripped (fuel : Nat) (content d : Str) (m : Meta)
    (res : List Chunk) (store' : Store)
    (h : chunk_document fuel content d m = .ok (res, store'))
    (hbig : content.length > MAX_CHUNK_SIZE) :
    ∀ c ∈ res, c.content ≠ [] ∧ strip c.content = c.content :=
  (final_state fuel content d m res store' h (by omega)).2.2

theorem C10_stripped_witness :
    s1b ≠ [] ∧ strip s1b = s1b := by
  have h := C10_stripped 1 content6 ("doc").data []
    [⟨("doc").data ++ ("_chunk_").data ++ ['0'], s1b, 1⟩,
     ⟨("doc").data ++ ("_chunk_").data ++ ['1'], chunk6content, 2⟩]
    [[], mkMeta [] 0 2, mkMeta [] 1 2] (run6 1 ("doc").data [])
    (by rw [content6_length]; decide)
    ⟨("doc").data ++ ("_chunk_").data ++ ['0'], s1b, 1⟩
    (List.mem_cons_self _ _)
  exact h

/-! ### C6, amended: how the overlap seam is actually built -/

/-- C6 amended: the overlap seed of a new chunk is drawn from the pre-strip
accumulation buffer, not from the emitted chunk's stripped content, and the
seeded buffer is itself stripped at emission. For a document whose sections
are `[s₁, s₂]` with `s₁` emitted at the section boundary and the seeded
buffer emitted as the final chunk, chunk 0 is `strip s₁` and chunk 1 is
`strip (tailN CHUNK_OVERLAP s₁ ++ "\n\n" ++ s₂)` — the stripped form of the
last `CHUNK_OVERLAP` characters of the buffer `s₁`, a blank-line separator,
and the next section; when stripping removes leading whitespace of that
suffix, chunk 1 does not start with the suffix of chunk 0's content. -/
theorem C6_overlap_seed (fuel : Nat) (content d : Str) (m : Meta) (s₁ s₂ : Str)
    (hbig : ¬ content.length ≤ MAX_CHUNK_SIZE)
    (hsec : sectionsOf content = [s₁, s₂])
    (h1ne : s₁ ≠ [])
    (h1len : ¬ s₁.length > MAX_CHUNK_SIZE)
    (hemit : s₁.length + s₂.length > MAX_CHUNK_SIZE)
    (hs1 : strip s₁ ≠ [])
    (hseed : ¬ (tailN CHUNK_OVERLAP s₁ ++ nl2 ++ s₂).length > MAX_CHUNK_SIZE)
    (hs2 : strip (tailN CHUNK_OVERLAP s₁ ++ nl2 ++ s₂) ≠ []) :
    chunk_document fuel content d m =
      .ok ([⟨d ++ ("_chunk_").data ++ ['0'], strip s₁, 1⟩,
            ⟨d ++ ("_chunk_").data ++ ['1'],
              strip (tailN CHUNK_OVERLAP s₁ ++ nl2 ++ s₂), 2⟩],
        [m, mkMeta m 0 2, mkMeta m 1 2]) := by
  have h1 : whileSplit d 0 fuel s₁ [] 0 [m] = .ok (s₁, [], 0, [m]) :=
    whileSplit_exit d 0 fuel s₁ [] 0 [m] h1len
  have h2 : whileSplit d 0 fuel (tailN CHUNK_OVERLAP s₁ ++ nl2 ++ s₂)
      ([] ++ [(create_chunk [m] d (strip s₁) 0 0).1]) (0 + 1)
      (create_chunk [m] d (strip s₁) 0 0).2 =
      .ok (tailN CHUNK_OVERLAP s₁ ++ nl2 ++ s₂,
        [] ++ [(create_chunk [m] d (strip s₁) 0 0).1], 0 + 1,
        (create_chunk [m] d (strip s₁) 0 0).2) :=
    whileSplit_exit d 0 fuel _ _ _ _ hseed
  have hgo : sectionsGo d 0 fuel [s₁, s₂] [] [] 0 [m] =
      .ok (tailN CHUNK_OVERLAP s₁ ++ nl2 ++ s₂,
        [] ++ [(create_chunk [m] d (strip s₁) 0 0).1], 0 + 1,
        (create_chunk [m] d (strip s₁) 0 0).2) := by
    rw [sectionsGo_cons_empty_ok d 0 fuel s₁ [s₂] [] 0 [m] _ _ _ _ h1,
      sectionsGo_cons_emit_ok d 0 fuel s₂ [] s₁ [] 0 [m] _ _ _ _
        ⟨h1ne, hemit⟩ hs1 h2,
      sectionsGo_nil]
  rw [chunk_document_final_emit content d m fuel
    (tailN CHUNK_OVERLAP s₁ ++ nl2 ++ s₂)
    ([] ++ [(create_chunk [m] d (strip s₁) 0 0).1]) (0 + 1)
    (create_chunk [m] d (strip s₁) 0 0).2
    hbig (by rw [hsec]; exact hgo) hs2]
  rfl

theorem C6_overlap_seed_witness :
    chunk_document 1 content6 ("doc").data [] =
      .ok ([⟨("doc").data ++ ("_chunk_").data ++ ['0'], strip s1b, 1⟩,
            ⟨("doc").data ++ ("_chunk_").data ++ ['1'],
              strip (tailN CHUNK_OVERLAP s1b ++ nl2 ++ s2b), 2⟩],
        [[], mkMeta [] 0 2, mkMeta [] 1 2]) :=
  C6_overlap_seed 1 content6 ("doc").data [] s1b s2b
    (by rw [content6_length]; decide)
    sectionsOf_content6
    s1b_ne_nil
    (by rw [s1b_length]; decide)
    (by rw [s1b_length, s2b_length]; decide)
    (by rw [strip_s1b]; exact s1b_ne_nil)
    (by rw [tailN_s1b,
      show ([' '] ++ List.replicate 249 'b') ++ nl2 ++ s2b = cur6 from rfl,
      cur6_length]; decide)
    (by rw [tailN_s1b,
      show ([' '] ++ List.replicate 249 'b') ++ nl2 ++ s2b = cur6 from rfl,
      strip_cur6]; exact chunk6content_ne_nil)

end DocChunker
